import Mathlib

/-!
Verification of the lyric line-segmentation core (`src/services/splitter.ts`).

A JavaScript string is modelled as a `List Char`.  All inputs the claims use
are BMP text, where JS UTF-16 code-unit indices and lengths coincide with
character counts.  The fractional tolerance thresholds of the source
(`limit * 1.5`, `limit * 1.3`, `limit * 1.4`, `limit * 0.4`, with `limit` a
positive integer) are embedded as exact integer inequalities by
cross-multiplication (for integer operands at these magnitudes the IEEE-754
double computation decides each comparison exactly the same way).

Recursive procedures of the source that consume a dynamic number of
characters per step are written with an explicit fuel argument so that every
definition is structurally recursive and kernel-evaluable; each step consumes
at least one character per fuel unit, so instantiating the fuel with the
input length reproduces the source behaviour exactly (the fuel-zero branch is
unreachable then, and the termination claim C2 is proved as a theorem rather
than assumed).
-/

/-- The `\u0000` sentinel used by `splitLyrics` to mask abbreviation periods. -/
def nul : Char := Char.ofNat 0

/-- The character class matched by JavaScript's `\s` (and removed by
`String.prototype.trim`): ASCII whitespace, NBSP, and the Unicode space
separators plus line/paragraph separators and the BOM. -/
def isJsWs (c : Char) : Bool :=
  c = ' ' || c = '\t' || c = '\n' || c = '\r' || c = Char.ofNat 11 || c = Char.ofNat 12 ||
  c = Char.ofNat 0xa0 || c = Char.ofNat 0x1680 ||
  (Char.ofNat 0x2000 ≤ c && c ≤ Char.ofNat 0x200a) ||
  c = Char.ofNat 0x2028 || c = Char.ofNat 0x2029 || c = Char.ofNat 0x202f ||
  c = Char.ofNat 0x205f || c = Char.ofNat 0x3000 || c = Char.ofNat 0xfeff

/-- JavaScript's `\w` / word-boundary character class `[A-Za-z0-9_]`. -/
def isWordChar (c : Char) : Bool :=
  ('a' ≤ c && c ≤ 'z') || ('A' ≤ c && c ≤ 'Z') || ('0' ≤ c && c ≤ '9') || c = '_'

/-- ASCII lower-casing, the canonicalisation a non-Unicode JS regex with the
`i` flag applies to the ASCII abbreviation words. -/
def lowerA (c : Char) : Char :=
  if 'A' ≤ c && c ≤ 'Z' then Char.ofNat (c.toNat + 32) else c

/-- Left half of `String.prototype.trim`. -/
def trimLeft (l : List Char) : List Char := l.dropWhile isJsWs

/-- Right half of `String.prototype.trim`. -/
def trimRight (l : List Char) : List Char := (l.reverse.dropWhile isJsWs).reverse

/-- `String.prototype.trim`. -/
def trimJs (l : List Char) : List Char := trimRight (trimLeft l)

/-- The non-whitespace characters of a string, in order (the quantity the
non-loss property of the spec is stated about). -/
def nonWs (l : List Char) : List Char := l.filter (fun c => !(isJsWs c))

/-- The abbreviation alternatives of `/\b(Mr|Mrs|Ms|Dr|Sr|Jr|St|Vs|Prof|Gen|Rep|Sen)\./gi`,
in the source's alternation order. -/
def abbrevWords : List (List Char) :=
  [String.toList "Mr", String.toList "Mrs", String.toList "Ms", String.toList "Dr",
   String.toList "Sr", String.toList "Jr", String.toList "St", String.toList "Vs",
   String.toList "Prof", String.toList "Gen", String.toList "Rep", String.toList "Sen"]

/-- Case-insensitive (ASCII) literal match of a word against the front of the
input; on success returns the matched input characters (original case, as the
`$1` back-reference preserves them) and the remainder. -/
def matchCI : List Char → List Char → Option (List Char × List Char)
  | [], l => some ([], l)
  | _ :: _, [] => none
  | w :: ws, c :: rest =>
    if lowerA c = lowerA w then
      match matchCI ws rest with
      | some (m, r) => some (c :: m, r)
      | none => none
    else none

/-- Try one abbreviation alternative followed by the literal period; on
success return the replacement text (`$1` + sentinel) and the remainder. -/
def tryAbbrevWord (w : List Char) (l : List Char) : Option (List Char × List Char) :=
  match matchCI w l with
  | some (m, r) =>
    match r with
    | c :: r' => if c = '.' then some (m ++ [nul], r') else none
    | [] => none
  | none => none

/-- Try the abbreviation alternatives in the regex's alternation order. -/
def tryAbbrevList : List (List Char) → List Char → Option (List Char × List Char)
  | [], _ => none
  | w :: ws, l =>
    match tryAbbrevWord w l with
    | some res => some res
    | none => tryAbbrevList ws l

/-- A match of `(Mr|Mrs|Ms|Dr|Sr|Jr|St|Vs|Prof|Gen|Rep|Sen)\.` (case-insensitive)
at the front of the input. -/
def tryAbbrev (l : List Char) : Option (List Char × List Char) :=
  tryAbbrevList abbrevWords l

/-- Scanner for the global replace
`raw.replace(/\b(Mr|Mrs|Ms|Dr|Sr|Jr|St|Vs|Prof|Gen|Rep|Sen)\./gi, '$1\u0000')`.
`prevW` records whether the previous input character is a word character (for
the `\b` assertion; every alternative starts with a letter, so `\b` holds iff
the previous character is not a word character).  Every step consumes at
least one input character per fuel unit, so fuel `l.length` never runs out. -/
def maskAbbrevGo : Nat → Bool → List Char → List Char
  | 0, _, l => l
  | _ + 1, _, [] => []
  | fuel + 1, prevW, c :: rest =>
    if prevW then c :: maskAbbrevGo fuel (isWordChar c) rest
    else
      match tryAbbrev (c :: rest) with
      | some (em, rest') => em ++ maskAbbrevGo fuel false rest'
      | none => c :: maskAbbrevGo fuel (isWordChar c) rest

/-- First masking pass of `splitLyrics` (honorific abbreviations). -/
def maskAbbrev (l : List Char) : List Char := maskAbbrevGo l.length false l

/-- Scanner for the second replace `.replace(/\b([A-Z])\./g, '$1\u0000')`
(initials): a single ASCII uppercase letter at a word boundary followed by a
period. -/
def maskInitialsGo : Nat → Bool → List Char → List Char
  | 0, _, l => l
  | _ + 1, _, [] => []
  | fuel + 1, prevW, c :: rest =>
    if !prevW && ('A' ≤ c && c ≤ 'Z') then
      match rest with
      | d :: r' =>
        if d = '.' then c :: nul :: maskInitialsGo fuel false r'
        else c :: maskInitialsGo fuel (isWordChar c) (d :: r')
      | [] => c :: maskInitialsGo fuel (isWordChar c) []
    else c :: maskInitialsGo fuel (isWordChar c) rest

/-- Second masking pass of `splitLyrics` (single-letter initials). -/
def maskInitials (l : List Char) : List Char := maskInitialsGo l.length false l

/-- The final unmasking step `line.replace(/\u0000/g, '.')`, per character. -/
def restoreChar (c : Char) : Char := if c = nul then '.' else c

/-- `protectedRaw.split(/\r?\n/)`: split on `\n` or `\r\n` (a lone `\r` is not
a separator). -/
def splitNL : List Char → List (List Char)
  | [] => [[]]
  | '\n' :: rest => [] :: splitNL rest
  | '\r' :: '\n' :: rest => [] :: splitNL rest
  | c :: rest =>
    match splitNL rest with
    | [] => [[c]]
    | p :: ps => (c :: p) :: ps

/-- The sentence-terminator class `[.!?！？]` of strategy 1. -/
def isMajor (c : Char) : Bool := c = '.' || c = '!' || c = '?' || c = '！' || c = '？'

/-- The clause-punctuation class `[,，;；:：]` of strategy 2. -/
def isMinor (c : Char) : Bool := c = ',' || c = '，' || c = ';' || c = '；' || c = ':' || c = '：'

/-- The hyphen alternatives `[-–—]` of strategy 2. -/
def isHyph (c : Char) : Bool := c = '-' || c = '–' || c = '—'

/-- The lookahead `(?=\s|$)` both split regexes end with. -/
def lookWsEnd : List Char → Bool
  | [] => true
  | c :: _ => isJsWs c

/-- A match of `([.!?！？]+)(?=\s|$)` at the front of the input.  The `+` is
greedy; shortening the run on a failed lookahead cannot succeed because the
next character would again be a terminator (never `\s`), so a match exists
iff the maximal run is followed by whitespace or end of input. -/
def trySepMajor (l : List Char) : Option (List Char × List Char) :=
  match l with
  | [] => none
  | c :: _ =>
    if isMajor c then
      let run := l.takeWhile isMajor
      let rest := l.dropWhile isMajor
      if lookWsEnd rest then some (run, rest) else none
    else none

/-- The `\s[-–—]+\s` alternative of strategy 2, after its leading whitespace
character `c`: a non-empty greedy hyphen run, one closing whitespace
character, then the `(?=\s|$)` lookahead.  Shortening the greedy run on
failure cannot succeed because the next character would be a hyphen, never
`\s`. -/
def hyphSep (c : Char) (rest : List Char) : Option (List Char × List Char) :=
  let hs := rest.takeWhile isHyph
  let rest2 := rest.dropWhile isHyph
  if hs.isEmpty then none
  else
    match rest2 with
    | w :: rest3 =>
      if isJsWs w && lookWsEnd rest3 then some (c :: (hs ++ [w]), rest3) else none
    | [] => none

/-- The `\.\.\.` alternative of strategy 2, after its leading period: two
further literal periods then the lookahead. -/
def dotSep : List Char → Option (List Char × List Char)
  | '.' :: '.' :: r => if lookWsEnd r then some (['.', '.', '.'], r) else none
  | _ => none

/-- A match of `([,，;；:：]|\s[-–—]+\s|\.\.\.)(?=\s|$)` at the front of the
input.  The three alternatives start with disjoint character classes
(clause punctuation / whitespace / period), so the alternation order does
not matter. -/
def trySepMinor (l : List Char) : Option (List Char × List Char) :=
  match l with
  | [] => none
  | c :: rest =>
    if isMinor c then
      if lookWsEnd rest then some ([c], rest) else none
    else if isJsWs c then hyphSep c rest
    else if c = '.' then dotSep rest
    else none

/-- `text.split(separatorRegex)` with one capture group, represented as the
list of (piece, separator) pairs followed by the final piece.  The JS result
array is `pairs.flatMap (p => [p.1, p.2]) ++ [last]`, so `parts.length < 3`
iff the pair list is empty.  Each step consumes at least one character per
fuel unit (separators are non-empty), so fuel `l.length` never runs out. -/
def genSplitGo (trySep : List Char → Option (List Char × List Char)) :
    Nat → List Char → List Char → List (List Char × List Char) × List Char
  | 0, curRev, l => ([], curRev.reverse ++ l)
  | _ + 1, curRev, [] => ([], curRev.reverse)
  | fuel + 1, curRev, c :: rest =>
    match trySep (c :: rest) with
    | some (sep, rest') =>
      let r := genSplitGo trySep fuel [] rest'
      ((curRev.reverse, sep) :: r.1, r.2)
    | none => genSplitGo trySep fuel (c :: curRev) rest

/-- Regex split of a whole string. -/
def genSplit (trySep : List Char → Option (List Char × List Char)) (l : List Char) :
    List (List Char × List Char) × List Char :=
  genSplitGo trySep l.length [] l

/-- The atom list `trySplitAndReflow` builds: each piece concatenated with
its trailing separator (the final piece with `""`), trimmed, empties
dropped. -/
def atomsOf (trySep : List Char → Option (List Char × List Char)) (text : List Char) :
    List (List Char) :=
  let r := genSplit trySep text
  ((r.1.map fun p => trimJs (p.1 ++ p.2)) ++ [trimJs r.2]).filter fun a => !a.isEmpty

/-- The greedy packing loop of `trySplitAndReflow`.  `h` is the recursive
re-segmentation applied to an atom longer than `limit * 1.5`
(`2 * length > 3 * limit`); the reflow tolerance test
`currentLine.length + 1 + atom.length <= limit * 1.3` is
`10 * (…) ≤ 13 * limit`. -/
def reflowGo (h : List Char → List (List Char) → List (List Char)) (limit : Nat) :
    List (List Char) → List Char → List (List Char) → List (List Char)
  | [], cur, acc => if cur.isEmpty then acc else acc ++ [cur]
  | atom :: rest, cur, acc =>
    if cur ≠ [] ∧ 10 * (cur.length + 1 + atom.length) ≤ 13 * limit then
      reflowGo h limit rest (cur ++ ' ' :: atom) acc
    else
      let acc1 := if cur.isEmpty then acc else acc ++ [cur]
      if 2 * atom.length > 3 * limit then
        reflowGo h limit rest [] (h atom acc1)
      else
        reflowGo h limit rest atom acc1

/-- `trySplitAndReflow` of the source: `none` models the `false` return (no
effective split, accumulator untouched), `some acc'` the `true` return with
the updated accumulator. -/
def trySplitAndReflow (h : List Char → List (List Char) → List (List Char))
    (trySep : List Char → Option (List Char × List Char))
    (text : List Char) (limit : Nat) (acc : List (List Char)) :
    Option (List (List Char)) :=
  if ((genSplit trySep text).1).isEmpty then none
  else
    let atoms := atomsOf trySep text
    if atoms.length < 2 then none
    else some (reflowGo h limit atoms [] acc)

/-- `text.lastIndexOf(' ', bound)`: the largest index `≤ bound` holding a
space character, scanned as `-1` when absent.  `idx` is the index of the
head of `l` in the original string. -/
def lastSpaceFrom : List Char → Nat → Nat → Option Nat
  | [], _, _ => none
  | c :: rest, idx, bound =>
    if bound < idx then none
    else
      match lastSpaceFrom rest (idx + 1) bound with
      | some j => some j
      | none => if c = ' ' then some idx else none

/-- `text.lastIndexOf(' ', bound)` with the JS `-1` convention. -/
def lastIndexOfSpace (l : List Char) (bound : Nat) : Int :=
  match lastSpaceFrom l 0 bound with
  | some j => (j : Int)
  | none => -1

/-- `text.indexOf(' ', lo)`: the smallest index `≥ lo` holding a space. -/
def firstSpaceFrom : List Char → Nat → Nat → Option Nat
  | [], _, _ => none
  | c :: rest, idx, lo =>
    if lo ≤ idx ∧ c = ' ' then some idx else firstSpaceFrom rest (idx + 1) lo

/-- `text.indexOf(' ', lo)` with the JS `-1` convention. -/
def indexOfSpaceFrom (l : List Char) (lo : Nat) : Int :=
  match firstSpaceFrom l 0 lo with
  | some j => (j : Int)
  | none => -1

/-- `findBestSplitIndex` of the source.  `index < limit * 0.4` is
`5 * index < 2 * limit` and `nextSpace <= limit * 1.4` is
`5 * nextSpace ≤ 7 * limit` (exact for the double computation on integer
inputs).  When `index = -1` the first guard always holds, so the second
`indexOf` of the source returns the same `nextSpace`; the branch structure
below is the resulting normal form of the source's two blocks. -/
def findBestSplitIndex (text : List Char) (limit : Nat) : Int :=
  let index := lastIndexOfSpace text limit
  let nextSpace := indexOfSpaceFrom text limit
  if 5 * index < 2 * (limit : Int) ∧ nextSpace ≠ -1 ∧ 5 * nextSpace ≤ 7 * (limit : Int) then
    nextSpace
  else if index = -1 then -1
  else index

/-- One unfolding of `processSegment`, abstracted over the recursive call
`rec`.  The terminal test `text.length <= Math.max(limit * 1.5, limit + 5)`
is `2 * length ≤ 3 * limit ∨ length ≤ limit + 5`. -/
def processStep (rec : List Char → Nat → List (List Char) → List (List Char))
    (text : List Char) (limit : Nat) (acc : List (List Char)) : List (List Char) :=
  if 2 * text.length ≤ 3 * limit ∨ text.length ≤ limit + 5 then acc ++ [text]
  else
    match trySplitAndReflow (fun a acc' => rec a limit acc') trySepMajor text limit acc with
    | some res => res
    | none =>
      match trySplitAndReflow (fun a acc' => rec a limit acc') trySepMinor text limit acc with
      | some res => res
      | none =>
        let fbi := findBestSplitIndex text limit
        let si : Nat := (if fbi = -1 then (limit : Int) else fbi).toNat
        let head := trimJs (List.take si text)
        let tail := trimJs (List.drop si text)
        let acc1 := if head.isEmpty then acc else acc ++ [head]
        if tail.isEmpty then acc1 else rec tail limit acc1

/-- `processSegment` with fuel: each recursive call (strategy-3 tail or
oversized reflow atom) strictly shrinks the segment, so fuel
`text.length + 1` suffices (claim C2); on exhausted fuel the accumulator is
returned unchanged. -/
def processSegmentF : Nat → List Char → Nat → List (List Char) → List (List Char)
  | 0 => fun _ _ acc => acc
  | fuel + 1 => processStep (processSegmentF fuel)

/-- `splitLyrics` of the source: the `!raw` guard, the two masking passes,
the paragraph split with per-paragraph trim-and-drop, the recursive
segmentation, and the final unmasking. -/
def splitLyrics (raw : List Char) (targetLen : Nat) : List (List Char) :=
  if raw.isEmpty then []
  else
    let prot := maskInitials (maskAbbrev raw)
    let lines := (splitNL prot).foldl
      (fun acc p =>
        let t := trimJs p
        if t.isEmpty then acc else processSegmentF (t.length + 1) t targetLen acc) []
    lines.map (fun line => line.map restoreChar)

/-- The body of the paragraph fold of `splitLyrics` (trim, skip empties,
recursively segment), named for reuse in the fold lemmas. -/
def paraStep (limit : Nat) (acc : List (List Char)) (p : List Char) : List (List Char) :=
  if (trimJs p).isEmpty then acc
  else processSegmentF ((trimJs p).length + 1) (trimJs p) limit acc

/-- Whether `pat` occurs at the front of the second argument. -/
def startsWithL : List Char → List Char → Bool
  | [], _ => true
  | _ :: _, [] => false
  | p :: ps, c :: cs => p = c && startsWithL ps cs

/-- Whether `pat` occurs contiguously anywhere in the second argument (used to
state that a word is not cut across lines). -/
def containsSub (pat : List Char) : List Char → Bool
  | [] => pat.isEmpty
  | c :: rest => startsWithL pat (c :: rest) || containsSub pat rest

/-- Drop one trailing carriage return: the effect of the optional `\r?` of the
paragraph separator `/\r?\n/` on the piece that precedes a `\n`. -/
def stripCR (l : List Char) : List Char :=
  if l.getLast? = some '\r' then l.dropLast else l

/-- Apply `f` to the last element of a list of pieces (identity on `[]`). -/
def modifyLast (f : List Char → List Char) : List (List Char) → List (List Char)
  | [] => []
  | [p] => [f p]
  | p :: ps => p :: modifyLast f ps

/-- The concatenation of all pieces and separators of a split result. -/
def flattenParts (r : List (List Char × List Char) × List Char) : List Char :=
  (r.1.map (fun p => p.1 ++ p.2)).flatten ++ r.2

/-- The split pieces of the source's `parts` array: each content chunk glued
to its separator, then the final chunk. -/
def piecesOf (trySep : List Char → Option (List Char × List Char)) (text : List Char) :
    List (List Char) :=
  (genSplit trySep text).1.map (fun p => p.1 ++ p.2) ++ [(genSplit trySep text).2]

/-- The invariant each line pushed by the segmentation core satisfies:
within the `maxLen` tolerance, non-empty, and equal to its own trim. -/
def LineOk (limit : Nat) (l : List Char) : Prop :=
  (2 * l.length ≤ 3 * limit ∨ l.length ≤ limit + 5) ∧ l ≠ [] ∧ trimJs l = l

/-- `Masked m r`: `m` is `r` with some periods replaced by the sentinel
character (the shape of both replace passes of `splitLyrics`). -/
inductive Masked : List Char → List Char → Prop
  | nil : Masked [] []
  | keep (c : Char) {m r : List Char} : Masked m r → Masked (c :: m) (c :: r)
  | mask {m r : List Char} : Masked m r → Masked (nul :: m) ('.' :: r)

/-!  ## Basic lemmas about trimming and whitespace filtering -/

theorem nonWs_append (l m : List Char) : nonWs (l ++ m) = nonWs l ++ nonWs m :=
  List.filter_append ..

theorem nonWs_all_ws {l : List Char} (h : ∀ c ∈ l, isJsWs c = true) : nonWs l = [] := by
  simp only [nonWs, List.filter_eq_nil_iff]
  intro c hc
  simp [h c hc]

theorem nonWs_trimLeft (l : List Char) : nonWs (trimLeft l) = nonWs l := by
  conv_rhs => rw [← List.takeWhile_append_dropWhile (p := isJsWs) (l := l)]
  rw [trimLeft, nonWs_append, nonWs_all_ws (fun c hc => List.mem_takeWhile_imp hc)]
  simp

theorem nonWs_reverse (l : List Char) : nonWs l.reverse = (nonWs l).reverse := by
  simp [nonWs, List.filter_reverse]

theorem nonWs_trimRight (l : List Char) : nonWs (trimRight l) = nonWs l := by
  have h := nonWs_trimLeft l.reverse
  rw [trimLeft] at h
  have : nonWs ((l.reverse.dropWhile isJsWs).reverse) = (nonWs (l.reverse.dropWhile isJsWs)).reverse :=
    nonWs_reverse _
  rw [trimRight, this, h, nonWs_reverse, List.reverse_reverse]

theorem nonWs_trimJs (l : List Char) : nonWs (trimJs l) = nonWs l := by
  rw [trimJs, nonWs_trimRight, nonWs_trimLeft]

theorem trimLeft_length_le (l : List Char) : (trimLeft l).length ≤ l.length :=
  (List.dropWhile_sublist isJsWs).length_le

theorem trimRight_length_le (l : List Char) : (trimRight l).length ≤ l.length := by
  rw [trimRight]
  simpa using (List.dropWhile_sublist (l := l.reverse) isJsWs).length_le

theorem trimJs_length_le (l : List Char) : (trimJs l).length ≤ l.length :=
  le_trans (trimRight_length_le _) (trimLeft_length_le _)

theorem dropWhile_length_eq {p : Char → Bool} {l : List Char}
    (h : (l.dropWhile p).length = l.length) : l.dropWhile p = l := by
  induction l with
  | nil => simp
  | cons c t ih =>
    by_cases hc : p c
    · rw [List.dropWhile_cons_of_pos hc] at h
      have hle := (List.dropWhile_sublist (l := t) p).length_le
      simp at h
      omega
    · rw [List.dropWhile_cons_of_neg hc]

theorem trimLeft_eq_self_of_trimJs {l : List Char} (h : trimJs l = l) : trimLeft l = l := by
  have h1 : (trimJs l).length = l.length := by rw [h]
  have h2 : (trimLeft l).length ≤ l.length := trimLeft_length_le l
  have h3 : (trimJs l).length ≤ (trimLeft l).length := trimRight_length_le _
  have h4 : (trimLeft l).length = l.length := by omega
  exact dropWhile_length_eq h4

theorem trimRight_eq_self_of_trimJs {l : List Char} (h : trimJs l = l) : trimRight l = l := by
  have h1 := trimLeft_eq_self_of_trimJs h
  rw [trimJs, h1] at h
  exact h

theorem head_not_ws_of_trimLeft {c : Char} {t : List Char}
    (h : trimLeft (c :: t) = c :: t) : isJsWs c = false := by
  by_contra hc
  have hc' : isJsWs c = true := by
    cases hh : isJsWs c
    · exact absurd hh hc
    · rfl
  rw [trimLeft, List.dropWhile_cons_of_pos hc'] at h
  have hle := (List.dropWhile_sublist (l := t) isJsWs).length_le
  have hlen := congrArg List.length h
  simp at hlen
  omega

theorem trimLeft_cons_not_ws {c : Char} {t : List Char}
    (h : isJsWs c = false) : trimLeft (c :: t) = c :: t := by
  rw [trimLeft, List.dropWhile_cons_of_neg (by simp [h])]

theorem trimLeft_append_left {l m : List Char}
    (hl : trimLeft l = l) (hne : l ≠ []) : trimLeft (l ++ m) = l ++ m := by
  cases l with
  | nil => exact absurd rfl hne
  | cons c t =>
    have hc := head_not_ws_of_trimLeft hl
    rw [List.cons_append]
    exact trimLeft_cons_not_ws hc

theorem trimRight_append_right {l m : List Char}
    (hm : trimRight m = m) (hne : m ≠ []) : trimRight (l ++ m) = l ++ m := by
  have hm' : trimLeft m.reverse = m.reverse := by
    have h2 := congrArg List.reverse hm
    rw [trimRight, List.reverse_reverse] at h2
    exact h2
  rw [trimRight, List.reverse_append]
  cases hmr : m.reverse with
  | nil =>
    simp only [List.reverse_eq_nil_iff] at hmr
    exact absurd hmr hne
  | cons c t =>
    have hc : isJsWs c = false := by
      rw [hmr] at hm'
      exact head_not_ws_of_trimLeft hm'
    show (List.dropWhile isJsWs (c :: (t ++ l.reverse))).reverse = l ++ m
    rw [List.dropWhile_cons_of_neg (by simp [hc])]
    have hm2 : m = t.reverse ++ [c] := by
      have h3 := congrArg List.reverse hmr
      simpa using h3
    rw [hm2]
    simp

theorem trimJs_append_space {l m : List Char}
    (hl : trimJs l = l) (hm : trimJs m = m) (hlne : l ≠ []) (hmne : m ≠ []) :
    trimJs (l ++ ' ' :: m) = l ++ ' ' :: m := by
  have h1 : trimLeft (l ++ ' ' :: m) = l ++ ' ' :: m :=
    trimLeft_append_left (trimLeft_eq_self_of_trimJs hl) hlne
  rw [trimJs, h1]
  have h2 : trimRight m = m := trimRight_eq_self_of_trimJs hm
  have : (' ' :: m : List Char) = [' '] ++ m := rfl
  rw [show l ++ ' ' :: m = (l ++ [' ']) ++ m by simp]
  exact trimRight_append_right h2 hmne

theorem dropWhile_self (p : Char → Bool) (l : List Char) :
    (l.dropWhile p).dropWhile p = l.dropWhile p := by
  have h := List.head?_dropWhile_not p l
  cases hd : l.dropWhile p with
  | nil => simp
  | cons c t =>
    rw [hd] at h
    simp only [List.head?_cons] at h
    rw [List.dropWhile_cons_of_neg (by simp [h])]

theorem trimRight_idem (l : List Char) : trimRight (trimRight l) = trimRight l := by
  rw [trimRight, trimRight, List.reverse_reverse, dropWhile_self]

theorem trimRight_prefix (l : List Char) : trimRight l <+: l := by
  rw [trimRight]
  have h := List.dropWhile_suffix (l := l.reverse) (p := isJsWs)
  rcases h with ⟨t, ht⟩
  refine ⟨t.reverse, ?_⟩
  have := congrArg List.reverse ht
  simpa using this

theorem trimLeft_trimRight_trimLeft (l : List Char) :
    trimLeft (trimRight (trimLeft l)) = trimRight (trimLeft l) := by
  cases hd : trimRight (trimLeft l) with
  | nil => simp [trimLeft]
  | cons c t =>
    have hpre := trimRight_prefix (trimLeft l)
    rw [hd] at hpre
    rcases hpre with ⟨r, hr⟩
    have hhead : (trimLeft l).head? = some c := by
      rw [← hr]
      simp
    have h := List.head?_dropWhile_not isJsWs l
    rw [show l.dropWhile isJsWs = trimLeft l from rfl, hhead] at h
    exact trimLeft_cons_not_ws h

theorem trimJs_idem (l : List Char) : trimJs (trimJs l) = trimJs l := by
  rw [trimJs, trimJs, trimLeft_trimRight_trimLeft, trimRight_idem]

theorem trimJs_nil : trimJs [] = [] := rfl

/-!  ## Separator matchers produce non-empty prefixes of the input -/

theorem trySepMajor_spec {l s r : List Char} (h : trySepMajor l = some (s, r)) :
    s ≠ [] ∧ s ++ r = l := by
  match l with
  | [] => simp [trySepMajor] at h
  | c :: t =>
    simp only [trySepMajor] at h
    split at h
    case isTrue hmaj =>
      split at h
      case isTrue hlook =>
        simp only [Option.some.injEq, Prod.mk.injEq] at h
        obtain ⟨hs, hr⟩ := h
        subst hs hr
        refine ⟨?_, List.takeWhile_append_dropWhile ..⟩
        rw [List.takeWhile_cons_of_pos hmaj]
        simp
      case isFalse => simp at h
    case isFalse => simp at h

theorem hyphSep_spec {c : Char} {rest s r : List Char} (h : hyphSep c rest = some (s, r)) :
    s ≠ [] ∧ s ++ r = c :: rest := by
  simp only [hyphSep] at h
  split at h
  case isTrue => simp at h
  case isFalse hhs =>
    split at h
    case h_1 w rest3 heq =>
      split at h
      case isTrue hlook =>
        simp only [Option.some.injEq, Prod.mk.injEq] at h
        obtain ⟨hs, hr⟩ := h
        subst hs hr
        refine ⟨by simp, ?_⟩
        have hjoin : rest.takeWhile isHyph ++ rest.dropWhile isHyph = rest :=
          List.takeWhile_append_dropWhile ..
        rw [heq] at hjoin
        simp only [List.cons_append, List.append_assoc, List.singleton_append, List.nil_append]
        rw [hjoin]
      case isFalse => simp at h
    case h_2 => simp at h

theorem dotSep_spec {l s r : List Char} (h : dotSep l = some (s, r)) :
    s = ['.', '.', '.'] ∧ l = '.' :: '.' :: r := by
  match l with
  | [] => simp [dotSep] at h
  | [c] =>
    unfold dotSep at h
    split at h
    · simp_all
    · simp at h
  | c :: d :: t =>
    unfold dotSep at h
    split at h
    case h_1 r' heq =>
      split at h
      case isTrue =>
        simp only [Option.some.injEq, Prod.mk.injEq] at h
        obtain ⟨hs, hr⟩ := h
        subst hs hr
        obtain ⟨hc, hd, ht⟩ := by simpa using heq
        subst hc hd ht
        exact ⟨rfl, rfl⟩
      case isFalse => simp at h
    case h_2 => simp at h

theorem trySepMinor_spec {l s r : List Char} (h : trySepMinor l = some (s, r)) :
    s ≠ [] ∧ s ++ r = l := by
  match l with
  | [] => simp [trySepMinor] at h
  | c :: t =>
    simp only [trySepMinor] at h
    split at h
    case isTrue hmin =>
      split at h
      case isTrue hlook =>
        simp only [Option.some.injEq, Prod.mk.injEq] at h
        obtain ⟨hs, hr⟩ := h
        subst hs hr
        exact ⟨by simp, rfl⟩
      case isFalse => simp at h
    case isFalse hmin =>
      split at h
      case isTrue hws => exact hyphSep_spec h
      case isFalse hws =>
        split at h
        case isTrue hdot =>
          obtain ⟨hs, ht⟩ := dotSep_spec h
          subst hs hdot
          rw [ht]
          exact ⟨by simp, rfl⟩
        case isFalse => simp at h

/-!  ## Regex split: the pieces and separators concatenate back to the input -/

theorem genSplitGo_join (trySep : List Char → Option (List Char × List Char))
    (hspec : ∀ {l s r : List Char}, trySep l = some (s, r) → s ≠ [] ∧ s ++ r = l) :
    ∀ (fuel : Nat) (curRev l : List Char),
      flattenParts (genSplitGo trySep fuel curRev l) = curRev.reverse ++ l := by
  intro fuel
  induction fuel with
  | zero => intro curRev l; simp [genSplitGo, flattenParts]
  | succ fuel ih =>
    intro curRev l
    match l with
    | [] => simp [genSplitGo, flattenParts]
    | c :: rest =>
      simp only [genSplitGo]
      cases hm : trySep (c :: rest) with
      | none =>
        rw [ih (c :: curRev) rest]
        simp
      | some p =>
        obtain ⟨sep, rest'⟩ := p
        obtain ⟨-, hjoin⟩ := hspec hm
        simp only [flattenParts, List.map_cons, List.flatten_cons, List.append_assoc]
        have ihr := ih [] rest'
        simp only [flattenParts, List.reverse_nil, List.nil_append] at ihr
        rw [ihr, hjoin]

theorem piecesOf_flatten (trySep : List Char → Option (List Char × List Char))
    (hspec : ∀ {l s r : List Char}, trySep l = some (s, r) → s ≠ [] ∧ s ++ r = l)
    (text : List Char) : (piecesOf trySep text).flatten = text := by
  have h := genSplitGo_join trySep hspec text.length [] text
  simp only [flattenParts, List.reverse_nil, List.nil_append] at h
  unfold piecesOf genSplit
  rw [List.flatten_append]
  simp only [List.flatten_cons, List.flatten_nil, List.append_nil]
  exact h

theorem atomsOf_eq (trySep : List Char → Option (List Char × List Char)) (text : List Char) :
    atomsOf trySep text = ((piecesOf trySep text).map trimJs).filter (fun a => !a.isEmpty) := by
  simp only [atomsOf, piecesOf, List.map_append, List.map_map, List.map_cons, List.map_nil]
  rfl

theorem mem_atomsOf {trySep : List Char → Option (List Char × List Char)} {text a : List Char}
    (ha : a ∈ atomsOf trySep text) :
    a ≠ [] ∧ trimJs a = a ∧ (∃ x ∈ piecesOf trySep text, a = trimJs x) := by
  rw [atomsOf_eq] at ha
  have hmem := List.mem_of_mem_filter ha
  have hfilt := List.of_mem_filter ha
  obtain ⟨x, hx, hax⟩ := List.mem_map.mp hmem
  refine ⟨?_, ?_, ⟨x, hx, hax.symm⟩⟩
  · intro hnil
    rw [hnil] at hfilt
    simp at hfilt
  · rw [← hax, trimJs_idem]

theorem sum_lengths_le {L : List (List Char)} {a : List Char} (ha : a ∈ L) :
    a.length ≤ (L.map List.length).sum := by
  induction L with
  | nil => simp at ha
  | cons b rest ih =>
    rcases List.mem_cons.mp ha with rfl | hmem
    · simp
    · have := ih hmem
      simp only [List.map_cons, List.sum_cons]
      omega

theorem one_le_sum_of_mem {L : List (List Char)} {a : List Char} (ha : a ∈ L) (hne : a ≠ []) :
    1 ≤ (L.map List.length).sum := by
  have h := sum_lengths_le ha
  have : 1 ≤ a.length := by
    cases a with
    | nil => exact absurd rfl hne
    | cons _ _ => simp
  omega

theorem length_lt_sum_of_two {L : List (List Char)} (hlen : 2 ≤ L.length)
    (hne : ∀ x ∈ L, x ≠ []) {a : List Char} (ha : a ∈ L) :
    a.length + 1 ≤ (L.map List.length).sum := by
  induction L with
  | nil => simp at hlen
  | cons b rest ih =>
    simp only [List.map_cons, List.sum_cons]
    rcases List.mem_cons.mp ha with rfl | hmem
    · have hrest : rest ≠ [] := by
        intro h
        rw [h] at hlen
        simp at hlen
      obtain ⟨c, hc⟩ := List.exists_mem_of_ne_nil rest hrest
      have := one_le_sum_of_mem hc (hne c (List.mem_cons_of_mem _ hc))
      omega
    · have h1 := sum_lengths_le hmem
      have h2 : 1 ≤ b.length := by
        have := hne b (List.mem_cons_self ..)
        cases b with
        | nil => exact absurd rfl this
        | cons _ _ => simp
      omega

theorem atomsOf_sum_le (trySep : List Char → Option (List Char × List Char))
    (hspec : ∀ {l s r : List Char}, trySep l = some (s, r) → s ≠ [] ∧ s ++ r = l)
    (text : List Char) :
    ((atomsOf trySep text).map List.length).sum ≤ text.length := by
  rw [atomsOf_eq]
  have h1 : List.Sublist
      ((((piecesOf trySep text).map trimJs).filter (fun a => !a.isEmpty)).map List.length)
      (((piecesOf trySep text).map trimJs).map List.length) :=
    (List.filter_sublist _).map _
  have h2 := h1.sum_le_sum (by intro a _; exact Nat.zero_le a)
  have h3 : (((piecesOf trySep text).map trimJs).map List.length).sum
      ≤ ((piecesOf trySep text).map List.length).sum := by
    rw [List.map_map]
    exact List.sum_le_sum (fun x _ => trimJs_length_le x)
  have h4 : ((piecesOf trySep text).map List.length).sum = text.length := by
    conv_rhs => rw [← piecesOf_flatten trySep hspec text]
    rw [List.length_flatten]
  omega

theorem atom_length_lt (trySep : List Char → Option (List Char × List Char))
    (hspec : ∀ {l s r : List Char}, trySep l = some (s, r) → s ≠ [] ∧ s ++ r = l)
    {text a : List Char} (hlen : 2 ≤ (atomsOf trySep text).length)
    (ha : a ∈ atomsOf trySep text) : a.length < text.length := by
  have h1 := length_lt_sum_of_two hlen (fun x hx => (mem_atomsOf hx).1) ha
  have h2 := atomsOf_sum_le trySep hspec text
  omega

/-!  ## The accumulator is append-only (framing lemmas) -/

theorem reflowGo_acc (h : List Char → List (List Char) → List (List Char))
    (hh : ∀ a acc, h a acc = acc ++ h a []) (limit : Nat) :
    ∀ (atoms : List (List Char)) (cur : List Char) (acc : List (List Char)),
      reflowGo h limit atoms cur acc = acc ++ reflowGo h limit atoms cur [] := by
  intro atoms
  induction atoms with
  | nil =>
    intro cur acc
    by_cases hc : cur.isEmpty <;> simp [reflowGo, hc]
  | cons atom rest ih =>
    intro cur acc
    simp only [reflowGo]
    by_cases h1 : cur ≠ [] ∧ 10 * (cur.length + 1 + atom.length) ≤ 13 * limit
    · rw [if_pos h1, if_pos h1, ih (cur ++ ' ' :: atom) acc]
    · rw [if_neg h1, if_neg h1]
      by_cases hc : cur.isEmpty
      · simp only [if_pos hc]
        by_cases hg : 2 * atom.length > 3 * limit
        · rw [if_pos hg, if_pos hg, ih [] (h atom acc), ih [] (h atom []), hh atom acc]
          simp
        · rw [if_neg hg, if_neg hg, ih atom acc]
      · simp only [if_neg hc]
        by_cases hg : 2 * atom.length > 3 * limit
        · rw [if_pos hg, if_pos hg, ih [] (h atom (acc ++ [cur])), ih [] (h atom ([] ++ [cur])),
            hh atom (acc ++ [cur]), hh atom ([] ++ [cur])]
          simp
        · rw [if_neg hg, if_neg hg, ih atom (acc ++ [cur]), ih atom ([] ++ [cur])]
          simp

theorem trySplitAndReflow_acc (h : List Char → List (List Char) → List (List Char))
    (hh : ∀ a acc, h a acc = acc ++ h a [])
    (trySep : List Char → Option (List Char × List Char)) (text : List Char) (limit : Nat)
    (acc : List (List Char)) :
    trySplitAndReflow h trySep text limit acc
      = (trySplitAndReflow h trySep text limit []).map (fun r => acc ++ r) := by
  simp only [trySplitAndReflow]
  by_cases h1 : ((genSplit trySep text).1).isEmpty
  · rw [if_pos h1, if_pos h1]
    rfl
  · rw [if_neg h1, if_neg h1]
    by_cases h2 : (atomsOf trySep text).length < 2
    · rw [if_pos h2, if_pos h2]
      rfl
    · rw [if_neg h2, if_neg h2]
      rw [reflowGo_acc h hh limit _ [] acc]
      rfl

theorem processSegmentF_acc :
    ∀ (fuel : Nat) (text : List Char) (limit : Nat) (acc : List (List Char)),
      processSegmentF fuel text limit acc = acc ++ processSegmentF fuel text limit [] := by
  intro fuel
  induction fuel with
  | zero => intro text limit acc; simp [processSegmentF]
  | succ fuel ih =>
    intro text limit acc
    show processStep (processSegmentF fuel) text limit acc
      = acc ++ processStep (processSegmentF fuel) text limit []
    simp only [processStep]
    by_cases h1 : 2 * text.length ≤ 3 * limit ∨ text.length ≤ limit + 5
    · rw [if_pos h1, if_pos h1]
      simp
    · rw [if_neg h1, if_neg h1]
      have hh : ∀ a acc', processSegmentF fuel a limit acc'
          = acc' ++ processSegmentF fuel a limit [] := fun a acc' => ih a limit acc'
      rw [trySplitAndReflow_acc _ hh trySepMajor text limit acc,
        trySplitAndReflow_acc _ hh trySepMajor text limit [],
        trySplitAndReflow_acc _ hh trySepMinor text limit acc,
        trySplitAndReflow_acc _ hh trySepMinor text limit []]
      cases hA : trySplitAndReflow (fun a acc' => processSegmentF fuel a limit acc')
          trySepMajor text limit [] with
      | some res => rfl
      | none =>
        cases hB : trySplitAndReflow (fun a acc' => processSegmentF fuel a limit acc')
            trySepMinor text limit [] with
        | some res => rfl
        | none =>
          show (match (none : Option (List (List Char))) with
            | some res => res
            | none => _) = acc ++ (match (none : Option (List (List Char))) with
            | some res => res
            | none => _)
          simp only []
          by_cases hhead : (trimJs (List.take ((if findBestSplitIndex text limit = -1 then
              (limit : Int) else findBestSplitIndex text limit).toNat) text)).isEmpty
          · rw [if_pos hhead, if_pos hhead]
            by_cases htail : (trimJs (List.drop ((if findBestSplitIndex text limit = -1 then
                (limit : Int) else findBestSplitIndex text limit).toNat) text)).isEmpty
            · rw [if_pos htail, if_pos htail]
              simp
            · rw [if_neg htail, if_neg htail, ih _ limit acc]
          · rw [if_neg hhead, if_neg hhead]
            by_cases htail : (trimJs (List.drop ((if findBestSplitIndex text limit = -1 then
                (limit : Int) else findBestSplitIndex text limit).toNat) text)).isEmpty
            · rw [if_pos htail, if_pos htail]
              simp
            · rw [if_neg htail, if_neg htail, ih _ limit (acc ++ _), ih _ limit ([] ++ _)]
              simp

/-!  ## Congruence: the reflow loop only evaluates its recursive argument on
the atoms of the list -/

theorem reflowGo_congr {h1 h2 : List Char → List (List Char) → List (List Char)} (limit : Nat) :
    ∀ (atoms : List (List Char)) (cur : List Char) (acc : List (List Char)),
      (∀ a ∈ atoms, ∀ acc', h1 a acc' = h2 a acc') →
      reflowGo h1 limit atoms cur acc = reflowGo h2 limit atoms cur acc := by
  intro atoms
  induction atoms with
  | nil => intro cur acc _; rfl
  | cons atom rest ih =>
    intro cur acc hc
    have hcr : ∀ a ∈ rest, ∀ acc', h1 a acc' = h2 a acc' :=
      fun a ha acc' => hc a (List.mem_cons_of_mem _ ha) acc'
    simp only [reflowGo]
    by_cases hfit : cur ≠ [] ∧ 10 * (cur.length + 1 + atom.length) ≤ 13 * limit
    · rw [if_pos hfit, if_pos hfit]
      exact ih _ _ hcr
    · rw [if_neg hfit, if_neg hfit]
      by_cases hg : 2 * atom.length > 3 * limit
      · rw [if_pos hg, if_pos hg, hc atom (List.mem_cons_self ..)]
        exact ih _ _ hcr
      · rw [if_neg hg, if_neg hg]
        exact ih _ _ hcr

theorem trySplitAndReflow_congr {h1 h2 : List Char → List (List Char) → List (List Char)}
    (trySep : List Char → Option (List Char × List Char)) (text : List Char) (limit : Nat)
    (acc : List (List Char))
    (hc : 2 ≤ (atomsOf trySep text).length →
      ∀ a ∈ atomsOf trySep text, ∀ acc', h1 a acc' = h2 a acc') :
    trySplitAndReflow h1 trySep text limit acc = trySplitAndReflow h2 trySep text limit acc := by
  simp only [trySplitAndReflow]
  by_cases hp : ((genSplit trySep text).1).isEmpty
  · rw [if_pos hp, if_pos hp]
  · rw [if_neg hp, if_neg hp]
    by_cases h2' : (atomsOf trySep text).length < 2
    · rw [if_pos h2', if_pos h2']
    · rw [if_neg h2', if_neg h2']
      rw [reflowGo_congr limit _ _ _ (hc (by omega))]

/-!  ## Properties of the whitespace-index search -/

theorem firstSpaceFrom_spec :
    ∀ (l : List Char) (idx lo j : Nat), firstSpaceFrom l idx lo = some j →
      lo ≤ j ∧ idx ≤ j ∧ j - idx < l.length ∧ l[j - idx]? = some ' ' := by
  intro l
  induction l with
  | nil => intro idx lo j h; simp [firstSpaceFrom] at h
  | cons c rest ih =>
    intro idx lo j h
    simp only [firstSpaceFrom] at h
    split at h
    case isTrue hcond =>
      obtain ⟨hlo, hc⟩ := hcond
      simp only [Option.some.injEq] at h
      subst h
      refine ⟨hlo, le_refl _, by simp, ?_⟩
      simp [hc]
    case isFalse hcond =>
      obtain ⟨hlo, hidx, hlt, hget⟩ := ih (idx + 1) lo j h
      refine ⟨hlo, by omega, by simp; omega, ?_⟩
      have hji : j - idx = (j - (idx + 1)) + 1 := by omega
      rw [hji]
      simpa using hget

theorem lastSpaceFrom_spec :
    ∀ (l : List Char) (idx bound j : Nat), lastSpaceFrom l idx bound = some j →
      idx ≤ j ∧ j ≤ bound ∧ j - idx < l.length ∧ l[j - idx]? = some ' ' := by
  intro l
  induction l with
  | nil => intro idx bound j h; simp [lastSpaceFrom] at h
  | cons c rest ih =>
    intro idx bound j h
    simp only [lastSpaceFrom] at h
    split at h
    case isTrue => simp at h
    case isFalse hbnd =>
      cases hrec : lastSpaceFrom rest (idx + 1) bound with
      | some j' =>
        rw [hrec] at h
        simp only [Option.some.injEq] at h
        subst h
        obtain ⟨hidx, hb, hlt, hget⟩ := ih (idx + 1) bound j' hrec
        refine ⟨by omega, hb, by simp; omega, ?_⟩
        have hji : j' - idx = (j' - (idx + 1)) + 1 := by omega
        rw [hji]
        simpa using hget
      | none =>
        rw [hrec] at h
        have h' : (if c = ' ' then some idx else none) = some j := h
        split at h'
        case isTrue hc =>
          simp only [Option.some.injEq] at h'
          subst h'
          refine ⟨le_refl _, by omega, by simp, by simp [hc]⟩
        case isFalse => simp at h'

theorem lastIndexOfSpace_spec (text : List Char) (limit : Nat) :
    lastIndexOfSpace text limit = -1 ∨
    ∃ j : Nat, lastIndexOfSpace text limit = (j : Int) ∧ j ≤ limit ∧ j < text.length ∧
      (j = 0 → text[0]? = some ' ') := by
  unfold lastIndexOfSpace
  cases hL : lastSpaceFrom text 0 limit with
  | none => exact Or.inl rfl
  | some j =>
    obtain ⟨-, hjb, hlt, hget⟩ := lastSpaceFrom_spec _ _ _ _ hL
    right
    exact ⟨j, rfl, hjb, by omega, fun h0 => by subst h0; simpa using hget⟩

theorem indexOfSpaceFrom_spec (text : List Char) (limit : Nat) :
    indexOfSpaceFrom text limit = -1 ∨
    ∃ k : Nat, indexOfSpaceFrom text limit = (k : Int) ∧ limit ≤ k ∧ k < text.length ∧
      (k = 0 → text[0]? = some ' ') := by
  unfold indexOfSpaceFrom
  cases hF : firstSpaceFrom text 0 limit with
  | none => exact Or.inl rfl
  | some k =>
    obtain ⟨hlo, -, hlt, hget⟩ := firstSpaceFrom_spec _ _ _ _ hF
    right
    exact ⟨k, rfl, hlo, by omega, fun h0 => by subst h0; simpa using hget⟩

theorem findBestSplitIndex_spec (text : List Char) (limit : Nat) :
    findBestSplitIndex text limit = -1 ∨
    ∃ n : Nat, findBestSplitIndex text limit = (n : Int) ∧ (n ≤ limit ∨ 5 * n ≤ 7 * limit) ∧
      (n = 0 → text[0]? = some ' ') := by
  unfold findBestSplitIndex
  rcases lastIndexOfSpace_spec text limit with hidx | ⟨j, hj, hjb, -, hj0⟩ <;>
    rcases indexOfSpaceFrom_spec text limit with hns | ⟨k, hk, -, -, hk0⟩
  · rw [hidx, hns, if_neg (by omega), if_pos rfl]
    exact Or.inl rfl
  · rw [hidx, hk]
    by_cases hcond : 5 * (k : Int) ≤ 7 * (limit : Int)
    · rw [if_pos ⟨by omega, by omega, hcond⟩]
      exact Or.inr ⟨k, rfl, Or.inr (by exact_mod_cast hcond), hk0⟩
    · rw [if_neg (by omega), if_pos rfl]
      exact Or.inl rfl
  · rw [hj, hns, if_neg (by omega), if_neg (by omega)]
    exact Or.inr ⟨j, rfl, Or.inl hjb, hj0⟩
  · rw [hj, hk]
    by_cases hcond : 5 * (j : Int) < 2 * (limit : Int) ∧ 5 * (k : Int) ≤ 7 * (limit : Int)
    · rw [if_pos ⟨hcond.1, by omega, hcond.2⟩]
      exact Or.inr ⟨k, rfl, Or.inr (by exact_mod_cast hcond.2), hk0⟩
    · rw [if_neg (by omega), if_neg (by omega)]
      exact Or.inr ⟨j, rfl, Or.inl hjb, hj0⟩

/-!  ## Strict decrease of the strategy-3 tail -/

theorem trimJs_cons_ws_length {c : Char} (t : List Char) (hc : isJsWs c = true) :
    (trimJs (c :: t)).length ≤ t.length := by
  have h1 : trimLeft (c :: t) = trimLeft t := by
    rw [trimLeft, List.dropWhile_cons_of_pos (by simp [hc])]
    rfl
  rw [trimJs, h1]
  exact le_trans (trimRight_length_le _) (trimLeft_length_le _)

theorem splitIndexPos_tail_lt (text : List Char) (limit : Nat) (hlim : 1 ≤ limit)
    (hne : 1 ≤ text.length) :
    (trimJs (List.drop ((if findBestSplitIndex text limit = -1 then (limit : Int)
      else findBestSplitIndex text limit).toNat) text)).length < text.length := by
  rcases findBestSplitIndex_spec text limit with h | ⟨n, hn, -, hn0⟩
  · rw [h, if_pos rfl]
    have h1 : (List.drop ((limit : Int).toNat) text).length ≤ text.length - 1 := by
      rw [List.length_drop]
      have : (limit : Int).toNat = limit := by omega
      omega
    have h2 := trimJs_length_le (List.drop ((limit : Int).toNat) text)
    omega
  · rw [hn, if_neg (by omega)]
    have htn : ((n : Int)).toNat = n := by omega
    rw [htn]
    by_cases hz : n = 0
    · subst hz
      have hhead := hn0 rfl
      cases text with
      | nil => simp at hne
      | cons c t =>
        simp only [List.getElem?_cons_zero, Option.some.injEq] at hhead
        subst hhead
        simp only [List.drop_zero, List.length_cons]
        have h1 : (trimJs (' ' :: t)).length ≤ t.length :=
          trimJs_cons_ws_length t (by decide)
        omega
    · have h1 : (List.drop n text).length ≤ text.length - 1 := by
        rw [List.length_drop]
        omega
      have h2 := trimJs_length_le (List.drop n text)
      omega

/-!  ## Fuel stability: the recursion strictly shrinks, so fuel `length + 1`
is enough (the content of claim C2) -/

theorem processStep_congr (rec1 rec2 : List Char → Nat → List (List Char) → List (List Char))
    (text : List Char) (limit : Nat) (acc : List (List Char)) (hlim : 1 ≤ limit)
    (hrec : ∀ a, a.length < text.length → ∀ acc', rec1 a limit acc' = rec2 a limit acc') :
    processStep rec1 text limit acc = processStep rec2 text limit acc := by
  simp only [processStep]
  by_cases h1 : 2 * text.length ≤ 3 * limit ∨ text.length ≤ limit + 5
  · rw [if_pos h1, if_pos h1]
  · rw [if_neg h1, if_neg h1]
    have hlen : 1 ≤ text.length := by omega
    have hA : trySplitAndReflow (fun a acc' => rec1 a limit acc') trySepMajor text limit acc
        = trySplitAndReflow (fun a acc' => rec2 a limit acc') trySepMajor text limit acc :=
      trySplitAndReflow_congr _ _ _ _ (fun h2 a ha acc' =>
        hrec a (atom_length_lt trySepMajor (fun h => trySepMajor_spec h) h2 ha) acc')
    have hB : trySplitAndReflow (fun a acc' => rec1 a limit acc') trySepMinor text limit acc
        = trySplitAndReflow (fun a acc' => rec2 a limit acc') trySepMinor text limit acc :=
      trySplitAndReflow_congr _ _ _ _ (fun h2 a ha acc' =>
        hrec a (atom_length_lt trySepMinor (fun h => trySepMinor_spec h) h2 ha) acc')
    rw [hA, hB]
    cases hval : trySplitAndReflow (fun a acc' => rec2 a limit acc') trySepMajor text limit acc with
    | some res => rfl
    | none =>
      cases hval2 : trySplitAndReflow (fun a acc' => rec2 a limit acc') trySepMinor text
          limit acc with
      | some res => rfl
      | none =>
        by_cases htail : (trimJs (List.drop ((if findBestSplitIndex text limit = -1 then
            (limit : Int) else findBestSplitIndex text limit).toNat) text)).isEmpty
        · rw [if_pos htail, if_pos htail]
        · rw [if_neg htail, if_neg htail]
          exact hrec _ (splitIndexPos_tail_lt text limit hlim hlen) _

theorem processSegmentF_stable :
    ∀ (N : Nat) (text : List Char), text.length ≤ N → ∀ (limit : Nat), 1 ≤ limit →
      ∀ (fuel : Nat), text.length + 1 ≤ fuel → ∀ (acc : List (List Char)),
      processSegmentF fuel text limit acc = processSegmentF (text.length + 1) text limit acc := by
  intro N
  induction N with
  | zero =>
    intro text hlen limit hlim fuel hfuel acc
    obtain ⟨f, rfl⟩ : ∃ f, fuel = f + 1 := ⟨fuel - 1, by omega⟩
    show processStep (processSegmentF f) text limit acc
      = processStep (processSegmentF text.length) text limit acc
    exact processStep_congr _ _ text limit acc hlim (fun a ha acc' => by omega)
  | succ N ih =>
    intro text hlen limit hlim fuel hfuel acc
    obtain ⟨f, rfl⟩ : ∃ f, fuel = f + 1 := ⟨fuel - 1, by omega⟩
    show processStep (processSegmentF f) text limit acc
      = processStep (processSegmentF text.length) text limit acc
    apply processStep_congr _ _ text limit acc hlim
    intro a ha acc'
    have h1 : processSegmentF f a limit acc' = processSegmentF (a.length + 1) a limit acc' :=
      ih a (by omega) limit hlim f (by omega) acc'
    have h2 : processSegmentF text.length a limit acc'
        = processSegmentF (a.length + 1) a limit acc' :=
      ih a (by omega) limit hlim text.length (by omega) acc'
    rw [h1, h2]

/-!  ## Invariants of every emitted line: bounded, non-empty, trimmed -/

theorem flush_invariant {limit : Nat} {cur : List Char} {acc : List (List Char)}
    (hcur : cur = [] ∨ (trimJs cur = cur ∧ cur ≠ [] ∧ 2 * cur.length ≤ 3 * limit)) :
    ∀ x ∈ (if cur.isEmpty then acc else acc ++ [cur]), x ∈ acc ∨ LineOk limit x := by
  intro x hx
  by_cases hce : cur.isEmpty
  · rw [if_pos hce] at hx
    exact Or.inl hx
  · rw [if_neg hce] at hx
    have hne : cur ≠ [] := by simpa using hce
    rcases hcur with rfl | ⟨htr, -, hb⟩
    · exact absurd rfl hne
    · rcases List.mem_append.mp hx with hmem | hmem
      · exact Or.inl hmem
      · have : x = cur := by simpa using hmem
        subst this
        exact Or.inr ⟨Or.inl hb, hne, htr⟩

theorem reflowGo_invariant (h : List Char → List (List Char) → List (List Char)) (limit : Nat)
    (hh : ∀ a acc', trimJs a = a → a ≠ [] →
      ∀ l ∈ h a acc', l ∈ acc' ∨ LineOk limit l) :
    ∀ (atoms : List (List Char)) (cur : List Char) (acc : List (List Char)),
      (∀ a ∈ atoms, trimJs a = a ∧ a ≠ []) →
      (cur = [] ∨ (trimJs cur = cur ∧ cur ≠ [] ∧ 2 * cur.length ≤ 3 * limit)) →
      ∀ l ∈ reflowGo h limit atoms cur acc, l ∈ acc ∨ LineOk limit l := by
  intro atoms
  induction atoms with
  | nil =>
    intro cur acc _ hcur l hl
    simp only [reflowGo] at hl
    exact flush_invariant hcur l hl
  | cons atom rest ih =>
    intro cur acc hatoms hcur l hl
    have hatom : trimJs atom = atom ∧ atom ≠ [] := hatoms atom (List.mem_cons_self ..)
    have hrest : ∀ a ∈ rest, trimJs a = a ∧ a ≠ [] :=
      fun a ha => hatoms a (List.mem_cons_of_mem _ ha)
    simp only [reflowGo] at hl
    by_cases hfit : cur ≠ [] ∧ 10 * (cur.length + 1 + atom.length) ≤ 13 * limit
    · rw [if_pos hfit] at hl
      rcases hcur with rfl | ⟨htr, hne, hb⟩
      · exact absurd rfl hfit.1
      · have hcur' : trimJs (cur ++ ' ' :: atom) = cur ++ ' ' :: atom :=
          trimJs_append_space htr hatom.1 hne hatom.2
        have hlen : (cur ++ ' ' :: atom).length = cur.length + 1 + atom.length := by
          simp only [List.length_append, List.length_cons]
          omega
        refine ih _ acc hrest (Or.inr ⟨hcur', by simp, ?_⟩) l hl
        rw [hlen]
        omega
    · rw [if_neg hfit] at hl
      by_cases hg : 2 * atom.length > 3 * limit
      · rw [if_pos hg] at hl
        have hstep : ∀ x ∈ h atom (if cur.isEmpty then acc else acc ++ [cur]),
            x ∈ acc ∨ LineOk limit x := by
          intro x hx
          rcases hh atom _ hatom.1 hatom.2 x hx with hmem | hok
          · exact flush_invariant hcur x hmem
          · exact Or.inr hok
        rcases ih _ _ hrest (Or.inl rfl) l hl with hmem | hok
        · exact hstep l hmem
        · exact Or.inr hok
      · rw [if_neg hg] at hl
        rcases ih _ _ hrest (Or.inr ⟨hatom.1, hatom.2, by omega⟩) l hl with hmem | hok
        · exact flush_invariant hcur l hmem
        · exact Or.inr hok

theorem trySplitAndReflow_invariant (h : List Char → List (List Char) → List (List Char))
    (trySep : List Char → Option (List Char × List Char)) (text : List Char) (limit : Nat)
    (acc res : List (List Char))
    (hh : ∀ a acc', trimJs a = a → a ≠ [] → ∀ l ∈ h a acc', l ∈ acc' ∨ LineOk limit l)
    (hres : trySplitAndReflow h trySep text limit acc = some res) :
    ∀ l ∈ res, l ∈ acc ∨ LineOk limit l := by
  simp only [trySplitAndReflow] at hres
  split at hres
  · simp at hres
  · split at hres
    · simp at hres
    · simp only [Option.some.injEq] at hres
      subst hres
      exact reflowGo_invariant h limit hh _ [] acc
        (fun a ha => ⟨(mem_atomsOf ha).2.1, (mem_atomsOf ha).1⟩) (Or.inl rfl)

theorem trimJs_take_length (n : Nat) (text : List Char) :
    (trimJs (List.take n text)).length ≤ n :=
  le_trans (trimJs_length_le _) (List.length_take_le ..)

theorem processSegmentF_invariant :
    ∀ (fuel : Nat) (text : List Char) (limit : Nat) (acc : List (List Char)),
      trimJs text = text → text ≠ [] →
      ∀ l ∈ processSegmentF fuel text limit acc, l ∈ acc ∨ LineOk limit l := by
  intro fuel
  induction fuel with
  | zero => intro text limit acc _ _ l hl; exact Or.inl hl
  | succ fuel ih =>
    intro text limit acc htrim hne l hl
    have hh : ∀ a acc', trimJs a = a → a ≠ [] →
        ∀ x ∈ processSegmentF fuel a limit acc', x ∈ acc' ∨ LineOk limit x :=
      fun a acc' h1 h2 => ih a limit acc' h1 h2
    replace hl : l ∈ processStep (processSegmentF fuel) text limit acc := hl
    simp only [processStep] at hl
    by_cases h1 : 2 * text.length ≤ 3 * limit ∨ text.length ≤ limit + 5
    · rw [if_pos h1] at hl
      rcases List.mem_append.mp hl with hmem | hmem
      · exact Or.inl hmem
      · have : l = text := by simpa using hmem
        subst this
        exact Or.inr ⟨h1, hne, htrim⟩
    · rw [if_neg h1] at hl
      cases hA : trySplitAndReflow (fun a acc' => processSegmentF fuel a limit acc')
          trySepMajor text limit acc with
      | some res =>
        rw [hA] at hl
        exact trySplitAndReflow_invariant _ _ _ _ _ _ (fun a acc' => hh a acc') hA l hl
      | none =>
        rw [hA] at hl
        cases hB : trySplitAndReflow (fun a acc' => processSegmentF fuel a limit acc')
            trySepMinor text limit acc with
        | some res =>
          rw [hB] at hl
          exact trySplitAndReflow_invariant _ _ _ _ _ _ (fun a acc' => hh a acc') hB l hl
        | none =>
          rw [hB] at hl
          set si : Nat := (if findBestSplitIndex text limit = -1 then (limit : Int)
            else findBestSplitIndex text limit).toNat with hsi
          have hsib : si ≤ limit ∨ 5 * si ≤ 7 * limit := by
            rcases findBestSplitIndex_spec text limit with hfb | ⟨n, hfb, hnb, -⟩
            · rw [hsi, hfb, if_pos rfl]
              left
              omega
            · rw [hsi, hfb, if_neg (by omega)]
              have : ((n : Int)).toNat = n := by omega
              rw [this]
              exact hnb
          have hacc1 : ∀ x ∈ (if (trimJs (List.take si text)).isEmpty then acc
              else acc ++ [trimJs (List.take si text)]), x ∈ acc ∨ LineOk limit x := by
            apply flush_invariant
            by_cases hz : trimJs (List.take si text) = []
            · exact Or.inl hz
            · refine Or.inr ⟨trimJs_idem _, hz, ?_⟩
              have hlen := trimJs_take_length si text
              omega
          by_cases htl : (trimJs (List.drop si text)).isEmpty
          · rw [if_pos htl] at hl
            exact hacc1 l hl
          · rw [if_neg htl] at hl
            rcases ih _ limit _ (trimJs_idem _) (by simpa using htl) l hl with hmem | hok
            · exact hacc1 l hmem
            · exact Or.inr hok

/-!  ## Unmasking preserves whitespace structure -/

theorem isJsWs_restoreChar (c : Char) : isJsWs (restoreChar c) = isJsWs c := by
  unfold restoreChar
  by_cases h : c = nul
  · subst h
    decide
  · rw [if_neg h]

theorem dropWhile_map_wsPreserving {f : Char → Char} (hf : ∀ c, isJsWs (f c) = isJsWs c)
    (l : List Char) : (l.map f).dropWhile isJsWs = (l.dropWhile isJsWs).map f := by
  rw [List.dropWhile_map]
  have : (isJsWs ∘ f) = isJsWs := funext hf
  rw [this]

theorem trimJs_map_restore (l : List Char) :
    trimJs (l.map restoreChar) = (trimJs l).map restoreChar := by
  have h1 : trimLeft (l.map restoreChar) = (trimLeft l).map restoreChar :=
    dropWhile_map_wsPreserving isJsWs_restoreChar l
  rw [trimJs, h1, trimRight, ← List.map_reverse,
    dropWhile_map_wsPreserving isJsWs_restoreChar, ← List.map_reverse]
  rfl

theorem nonWs_map_restore (l : List Char) :
    nonWs (l.map restoreChar) = (nonWs l).map restoreChar := by
  unfold nonWs
  rw [List.filter_map]
  have : ((fun c => !(isJsWs c)) ∘ restoreChar) = (fun c => !(isJsWs c)) := by
    funext c
    simp [Function.comp, isJsWs_restoreChar]
  rw [this]

/-!  ## The whole-pipeline line invariant -/

theorem splitLyrics_invariant (raw : List Char) (limit : Nat) :
    ∀ l ∈ splitLyrics raw limit,
      (2 * l.length ≤ 3 * limit ∨ l.length ≤ limit + 5) ∧ l ≠ [] ∧ trimJs l = l := by
  intro l hl
  unfold splitLyrics at hl
  by_cases hre : raw.isEmpty
  · rw [if_pos hre] at hl
    simp at hl
  · rw [if_neg hre] at hl
    obtain ⟨l0, hl0, rfl⟩ := List.mem_map.mp hl
    have hfold : ∀ (ps : List (List Char)) (acc : List (List Char)),
        (∀ x ∈ acc, LineOk limit x) →
        ∀ x ∈ ps.foldl (fun acc p =>
          if (trimJs p).isEmpty then acc
          else processSegmentF ((trimJs p).length + 1) (trimJs p) limit acc) acc,
        LineOk limit x := by
      intro ps
      induction ps with
      | nil => intro acc hacc x hx; exact hacc x hx
      | cons p rest ih =>
        intro acc hacc x hx
        simp only [List.foldl_cons] at hx
        refine ih _ ?_ x hx
        intro y hy
        by_cases hp : (trimJs p).isEmpty
        · rw [if_pos hp] at hy
          exact hacc y hy
        · rw [if_neg hp] at hy
          rcases processSegmentF_invariant _ _ limit acc (trimJs_idem p)
              (by simpa using hp) y hy with hmem | hok
          · exact hacc y hmem
          · exact hok
    have hLok : LineOk limit l0 := hfold _ [] (by simp) l0 hl0
    obtain ⟨hb, hne0, htr0⟩ := hLok
    refine ⟨by simpa using hb, by simpa using hne0, ?_⟩
    rw [trimJs_map_restore, htr0]

/-!  ## Claim theorems (first batch) -/

/-- C2: `splitLyrics` terminates.  The computation is fuel-stable — any fuel of at
least `text.length + 1` produces the same result, because every recursive call
strictly shrinks the segment: the strategy-3 tail is strictly shorter than the
enclosing segment, and every oversized atom handed back from the reflow packer
(possible only when the split yielded at least two non-empty atoms) is strictly
shorter as well. -/
theorem C2_termination (text : List Char) (limit : Nat) (acc : List (List Char)) (fuel : Nat)
    (hlim : 1 ≤ limit) (hfuel : text.length + 1 ≤ fuel) :
    (processSegmentF fuel text limit acc = processSegmentF (text.length + 1) text limit acc) ∧
    (1 ≤ text.length →
      (trimJs (List.drop ((if findBestSplitIndex text limit = -1 then (limit : Int)
        else findBestSplitIndex text limit).toNat) text)).length < text.length) ∧
    (2 ≤ (atomsOf trySepMajor text).length →
      ∀ a ∈ atomsOf trySepMajor text, a.length < text.length) ∧
    (2 ≤ (atomsOf trySepMinor text).length →
      ∀ a ∈ atomsOf trySepMinor text, a.length < text.length) := by
  refine ⟨processSegmentF_stable text.length text le_rfl limit hlim fuel hfuel acc,
    fun hne => splitIndexPos_tail_lt text limit hlim hne,
    fun h2 a ha => atom_length_lt trySepMajor (fun h => trySepMajor_spec h) h2 ha,
    fun h2 a ha => atom_length_lt trySepMinor (fun h => trySepMinor_spec h) h2 ha⟩

/-- Witness for C2 at a concrete input. -/
theorem C2_termination_witness :
    processSegmentF 99 (String.toList "hello world this is a long test line") 3 []
      = processSegmentF ((String.toList "hello world this is a long test line").length + 1)
          (String.toList "hello world this is a long test line") 3 [] :=
  (C2_termination (String.toList "hello world this is a long test line") 3 [] 99
    (by decide) (by decide)).1

/-- C3: every line returned by `splitLyrics` has length at most
`max(limit * 1.5, limit + 5)` (stated exactly: `2·len ≤ 3·limit` or
`len ≤ limit + 5`).  This holds for all output lines — in particular for
those the claim excepts (hard-cut lines are in fact no longer than `limit`,
and an oversized atom is only ever emitted once it fits the tolerance). -/
theorem C3_bounded_length (raw : List Char) (limit : Nat) (line : List Char)
    (hline : line ∈ splitLyrics raw limit) :
    2 * line.length ≤ 3 * limit ∨ line.length ≤ limit + 5 :=
  (splitLyrics_invariant raw limit line hline).1

/-- Witness for C3 at a concrete input. -/
theorem C3_bounded_length_witness :
    2 * (String.toList "Hello world.").length ≤ 3 * 20 ∨
      (String.toList "Hello world.").length ≤ 20 + 5 :=
  C3_bounded_length
    (String.toList "Hello world. This is a test sentence that is quite long indeed.") 20
    (String.toList "Hello world.") (by decide)

/-- C4: every line returned by `splitLyrics` is non-empty and equals its own
trim (so it is not whitespace-only); the proof is by the push-invariant on the
accumulator. -/
theorem C4_lines_trimmed_nonempty (raw : List Char) (limit : Nat) (line : List Char)
    (hline : line ∈ splitLyrics raw limit) :
    line ≠ [] ∧ trimJs line = line :=
  ⟨(splitLyrics_invariant raw limit line hline).2.1,
   (splitLyrics_invariant raw limit line hline).2.2⟩

/-- Witness for C4 at a concrete input. -/
theorem C4_lines_trimmed_nonempty_witness :
    String.toList "Hello world." ≠ [] ∧
      trimJs (String.toList "Hello world.") = String.toList "Hello world." :=
  C4_lines_trimmed_nonempty
    (String.toList "Hello world. This is a test sentence that is quite long indeed.") 20
    (String.toList "Hello world.") (by decide)

/-- C5 counterexample: for `"ab cdefghijklmnopqrstuvwxyz"` with `limit = 10`
the last space at or before the limit is at index 2, which is before
`earlySplitFloor = 4`, and there is no space after the limit at all — yet
`findBestSplitIndex` returns 2 (the too-early space), not the "not found"
signal `-1`, and the caller splits there (first line `"ab"`) instead of
hard-cutting at index 10. -/
theorem C5_counterexample :
    lastIndexOfSpace (String.toList "ab cdefghijklmnopqrstuvwxyz") 10 = 2 ∧
    5 * (2 : Int) < 2 * (10 : Int) ∧
    indexOfSpaceFrom (String.toList "ab cdefghijklmnopqrstuvwxyz") 10 = -1 ∧
    findBestSplitIndex (String.toList "ab cdefghijklmnopqrstuvwxyz") 10 = 2 ∧
    splitLyrics (String.toList "ab cdefghijklmnopqrstuvwxyz") 10
      = [String.toList "ab", String.toList "cdefghijkl", String.toList "mnopqrstuvwxyz"] := by
  decide

/-- C5 amended: when no space qualifies after the limit (absent or beyond
`lateSplitCeiling`), `findBestSplitIndex` reports "not found" (and the caller
hard-cuts at `limit`) only when there is no space at or before `limit` at
all; if a too-early space exists it is returned and the split happens there. -/
theorem C5_amended (text : List Char) (limit : Nat)
    (hlate : indexOfSpaceFrom text limit = -1 ∨
      5 * indexOfSpaceFrom text limit > 7 * (limit : Int)) :
    (lastIndexOfSpace text limit = -1 → findBestSplitIndex text limit = -1) ∧
    (∀ j : Nat, lastIndexOfSpace text limit = (j : Int) →
      findBestSplitIndex text limit = (j : Int)) := by
  constructor
  · intro hnone
    unfold findBestSplitIndex
    rw [hnone]
    rcases hlate with h | h
    · rw [h, if_neg (by omega), if_pos rfl]
    · rw [if_neg (by omega), if_pos rfl]
  · intro j hj
    unfold findBestSplitIndex
    rw [hj]
    rcases hlate with h | h
    · rw [h, if_neg (by omega), if_neg (by omega)]
    · rw [if_neg (by omega), if_neg (by omega)]

/-- Witness for C5 amended at a concrete input (no space anywhere: hard cut). -/
theorem C5_amended_witness :
    findBestSplitIndex (String.toList "abcdefghijklmnopqrst") 10 = -1 :=
  (C5_amended (String.toList "abcdefghijklmnopqrst") 10 (Or.inl (by decide))).1 (by decide)

/-- C6 counterexample: with the small positive target length 9, the output's
first line is `"semi-deta"` — the hard-cut fallback splits inside the word
`"semi-detached"`, and no output line contains the whole word. -/
theorem C6_counterexample :
    (splitLyrics (String.toList "semi-detached house - built in 1990") 9).head?
      = some (String.toList "semi-deta") ∧
    (splitLyrics (String.toList "semi-detached house - built in 1990") 9).any
      (containsSub (String.toList "semi-detached")) = false := by
  decide

/-- C7: `splitLyrics "Dr. Smith met Mr. Jones." 100` returns exactly the
one-element sequence with the input unchanged: the abbreviation periods are
masked, cause no split, and are restored verbatim. -/
theorem C7_abbrev_preserved :
    splitLyrics (String.toList "Dr. Smith met Mr. Jones.") 100
      = [String.toList "Dr. Smith met Mr. Jones."] := by
  decide

/-- C8: the sentence-boundary test input splits at the sentence boundary and
the first output line is exactly `"Hello world."`. -/
theorem C8_sentence_split :
    splitLyrics
        (String.toList "Hello world. This is a test sentence that is quite long indeed.") 20
      = [String.toList "Hello world.", String.toList "This is a test",
         String.toList "sentence that is", String.toList "quite long indeed."] ∧
    (splitLyrics
        (String.toList "Hello world. This is a test sentence that is quite long indeed.") 20).head?
      = some (String.toList "Hello world.") := by
  decide

/-- C1 counterexample: the input consisting of the single character U+0000 is
returned as the line `"."` — the unmasking step rewrites a sentinel that was
already present in the input, so the non-whitespace content is not preserved
for such inputs. -/
theorem C1_counterexample :
    splitLyrics [nul] 5 = [['.']] ∧
    nonWs (List.flatten (splitLyrics [nul] 5)) ≠ nonWs (List.flatten [[nul]]) := by
  decide

/-- C6 amended: for every target length of at least 10 the word
`"semi-detached"` survives intact on a single output line (the spaced hyphen
remains a permitted boundary); target lengths up to 23 are checked by
evaluation, larger ones make the whole input a single terminal line. -/
theorem C6_amended (limit : Nat) (hlim : 10 ≤ limit) :
    (splitLyrics (String.toList "semi-detached house - built in 1990") limit).any
      (containsSub (String.toList "semi-detached")) = true := by
  by_cases hsmall : limit ≤ 23
  · interval_cases limit <;> decide
  · push_neg at hsmall
    unfold splitLyrics
    rw [if_neg (by decide)]
    have hmask : maskInitials (maskAbbrev (String.toList "semi-detached house - built in 1990"))
        = String.toList "semi-detached house - built in 1990" := by decide
    rw [hmask]
    have hsplit : splitNL (String.toList "semi-detached house - built in 1990")
        = [String.toList "semi-detached house - built in 1990"] := by decide
    simp only [hsplit, List.foldl_cons, List.foldl_nil]
    have htrim : trimJs (String.toList "semi-detached house - built in 1990")
        = String.toList "semi-detached house - built in 1990" := by decide
    rw [htrim]
    rw [if_neg (by decide)]
    have hlen : (String.toList "semi-detached house - built in 1990").length + 1 = 36 := by
      decide
    rw [hlen]
    have hstep : processSegmentF 36 = processStep (processSegmentF 35) := rfl
    rw [hstep]
    unfold processStep
    have hlen35 : (String.toList "semi-detached house - built in 1990").length = 35 := by decide
    rw [if_pos (Or.inl (by rw [hlen35]; omega))]
    decide

/-- Witness for C6 amended at the concrete target length 14 used by the spec's
examples. -/
theorem C6_amended_witness :
    (splitLyrics (String.toList "semi-detached house - built in 1990") 14).any
      (containsSub (String.toList "semi-detached")) = true :=
  C6_amended 14 (by decide)

/-!  ## Whitespace-only input lemmas (claim C9) -/

theorem ws_not_upper {c : Char} (h : isJsWs c = true) (h1 : 'A' ≤ c) (h2 : c ≤ 'Z') :
    False := by
  simp only [isJsWs, Bool.or_eq_true, decide_eq_true_eq, Bool.and_eq_true] at h
  rcases h with ((((((((((((((h | h) | h) | h) | h) | h) | h) | h) | ⟨ha, hb⟩) | h) | h) | h) | h) | h) | h) <;>
    first
      | (subst h; revert h1 h2; decide)
      | (exact absurd (le_trans ha h2) (by decide))

theorem ws_not_lower {c : Char} (h : isJsWs c = true) (h1 : 'a' ≤ c) (h2 : c ≤ 'z') :
    False := by
  simp only [isJsWs, Bool.or_eq_true, decide_eq_true_eq, Bool.and_eq_true] at h
  rcases h with ((((((((((((((h | h) | h) | h) | h) | h) | h) | h) | ⟨ha, hb⟩) | h) | h) | h) | h) | h) | h) <;>
    first
      | (subst h; revert h1 h2; decide)
      | (exact absurd (le_trans ha h2) (by decide))

theorem ws_lowerA_ne {c d : Char} (hws : isJsWs c = true) (hd1 : 'a' ≤ d) (hd2 : d ≤ 'z') :
    lowerA c ≠ d := by
  intro heq
  unfold lowerA at heq
  split at heq
  case isTrue hup =>
    simp only [Bool.and_eq_true, decide_eq_true_eq] at hup
    exact ws_not_upper hws hup.1 hup.2
  case isFalse =>
    subst heq
    exact ws_not_lower hws hd1 hd2

theorem tryAbbrev_ws {c : Char} (rest : List Char) (hws : isJsWs c = true) :
    tryAbbrev (c :: rest) = none := by
  have hM : lowerA c ≠ lowerA 'M' := ws_lowerA_ne hws (by decide) (by decide)
  have hD : lowerA c ≠ lowerA 'D' := ws_lowerA_ne hws (by decide) (by decide)
  have hS : lowerA c ≠ lowerA 'S' := ws_lowerA_ne hws (by decide) (by decide)
  have hJ : lowerA c ≠ lowerA 'J' := ws_lowerA_ne hws (by decide) (by decide)
  have hV : lowerA c ≠ lowerA 'V' := ws_lowerA_ne hws (by decide) (by decide)
  have hP : lowerA c ≠ lowerA 'P' := ws_lowerA_ne hws (by decide) (by decide)
  have hG : lowerA c ≠ lowerA 'G' := ws_lowerA_ne hws (by decide) (by decide)
  have hR : lowerA c ≠ lowerA 'R' := ws_lowerA_ne hws (by decide) (by decide)
  have habb : abbrevWords = [['M', 'r'], ['M', 'r', 's'], ['M', 's'], ['D', 'r'], ['S', 'r'],
      ['J', 'r'], ['S', 't'], ['V', 's'], ['P', 'r', 'o', 'f'], ['G', 'e', 'n'],
      ['R', 'e', 'p'], ['S', 'e', 'n']] := rfl
  unfold tryAbbrev
  rw [habb]
  simp only [tryAbbrevList, tryAbbrevWord, matchCI, hM, hD, hS, hJ, hV, hP, hG, hR,
    if_false, ite_false]

theorem maskAbbrevGo_ws :
    ∀ (fuel : Nat) (prevW : Bool) (l : List Char), (∀ c ∈ l, isJsWs c = true) →
      maskAbbrevGo fuel prevW l = l := by
  intro fuel
  induction fuel with
  | zero => intro prevW l _; rfl
  | succ fuel ih =>
    intro prevW l hws
    match l with
    | [] => rfl
    | c :: rest =>
      have hc := hws c (List.mem_cons_self ..)
      have hrest : ∀ x ∈ rest, isJsWs x = true := fun x hx => hws x (List.mem_cons_of_mem _ hx)
      simp only [maskAbbrevGo]
      by_cases hp : prevW
      · rw [if_pos hp, ih _ rest hrest]
      · rw [if_neg hp, tryAbbrev_ws rest hc, ih _ rest hrest]

theorem maskInitialsGo_ws :
    ∀ (fuel : Nat) (prevW : Bool) (l : List Char), (∀ c ∈ l, isJsWs c = true) →
      maskInitialsGo fuel prevW l = l := by
  intro fuel
  induction fuel with
  | zero => intro prevW l _; rfl
  | succ fuel ih =>
    intro prevW l hws
    match l with
    | [] => rfl
    | c :: rest =>
      have hc := hws c (List.mem_cons_self ..)
      have hrest : ∀ x ∈ rest, isJsWs x = true := fun x hx => hws x (List.mem_cons_of_mem _ hx)
      have hup : (!prevW && ('A' ≤ c && c ≤ 'Z')) = false := by
        cases hA : ('A' ≤ c : Bool) with
        | false => simp [hA]
        | true =>
          cases hZ : (c ≤ 'Z' : Bool) with
          | false => simp [hA, hZ]
          | true =>
            exact (ws_not_upper hc (of_decide_eq_true hA) (of_decide_eq_true hZ)).elim
      simp only [maskInitialsGo]
      rw [hup]
      simp only [Bool.false_eq_true, if_false, ite_false]
      rw [ih _ rest hrest]

theorem splitNL_ws :
    ∀ (l : List Char), (∀ c ∈ l, isJsWs c = true) →
      ∀ p ∈ splitNL l, ∀ c ∈ p, isJsWs c = true := by
  intro l
  induction l using splitNL.induct with
  | case1 =>
    intro _ p hp c hc
    simp only [splitNL, List.mem_singleton] at hp
    subst hp
    simp at hc
  | case2 rest ih =>
    intro hws p hp c hc
    simp only [splitNL, List.mem_cons] at hp
    rcases hp with rfl | hp
    · simp at hc
    · exact ih (fun x hx => hws x (List.mem_cons_of_mem _ hx)) p hp c hc
  | case3 rest ih =>
    intro hws p hp c hc
    simp only [splitNL, List.mem_cons] at hp
    rcases hp with rfl | hp
    · simp at hc
    · exact ih (fun x hx => hws x (by simp [hx])) p hp c hc
  | case4 d rest hne1 hne2 hnil ih =>
    intro hws p hp c hc
    simp only [splitNL, hnil, List.mem_singleton] at hp
    subst hp
    simp only [List.mem_singleton] at hc
    subst hc
    exact hws c (List.mem_cons_self ..)
  | case5 d rest hne1 hne2 q qs hcons ih =>
    intro hws p hp c hc
    have hrest : ∀ x ∈ rest, isJsWs x = true := fun x hx => hws x (List.mem_cons_of_mem _ hx)
    simp only [splitNL, hcons, List.mem_cons] at hp
    rcases hp with rfl | hp2
    · rcases List.mem_cons.mp hc with rfl | hc2
      · exact hws c (List.mem_cons_self ..)
      · exact ih hrest q (by rw [hcons]; exact List.mem_cons_self ..) c hc2
    · exact ih hrest p (by rw [hcons]; exact List.mem_cons_of_mem _ hp2) c hc

theorem trimJs_ws {l : List Char} (hws : ∀ c ∈ l, isJsWs c = true) : trimJs l = [] := by
  have h1 : trimLeft l = [] := List.dropWhile_eq_nil_iff.mpr (fun x hx => by simp [hws x hx])
  rw [trimJs, h1]
  rfl

/-- C9: `splitLyrics` of the empty string, and more generally of any input all
of whose paragraphs are empty after trimming (equivalently: every character is
whitespace), returns the empty sequence for every target length. -/
theorem C9_blank_input (raw : List Char) (limit : Nat)
    (hws : ∀ c ∈ raw, isJsWs c = true) : splitLyrics raw limit = [] := by
  unfold splitLyrics
  by_cases hre : raw.isEmpty
  · rw [if_pos hre]
  · rw [if_neg hre]
    show (((splitNL (maskInitials (maskAbbrev raw))).foldl (fun acc p =>
      if (trimJs p).isEmpty then acc
      else processSegmentF ((trimJs p).length + 1) (trimJs p) limit acc) [])).map
        (fun line => line.map restoreChar) = []
    rw [maskAbbrev, maskAbbrevGo_ws _ _ _ hws, maskInitials, maskInitialsGo_ws _ _ _ hws]
    have hfold : ∀ (ps : List (List Char)) (acc : List (List Char)),
        (∀ p ∈ ps, ∀ c ∈ p, isJsWs c = true) →
        ps.foldl (fun acc p =>
          if (trimJs p).isEmpty then acc
          else processSegmentF ((trimJs p).length + 1) (trimJs p) limit acc) acc = acc := by
      intro ps
      induction ps with
      | nil => intro acc _; rfl
      | cons p rest ih =>
        intro acc hp
        simp only [List.foldl_cons]
        rw [trimJs_ws (hp p (List.mem_cons_self ..))]
        simp only [List.isEmpty_nil, if_true]
        exact ih acc (fun q hq => hp q (List.mem_cons_of_mem _ hq))
    rw [hfold (splitNL raw) [] (splitNL_ws raw hws)]
    rfl

/-- Witness for C9 at the spec's concrete example. -/
theorem C9_blank_input_witness : splitLyrics (String.toList "   \n\n  ") 14 = [] :=
  C9_blank_input (String.toList "   \n\n  ") 14 (by decide)

/-!  ## Non-whitespace preservation through the segmentation core (claim C1) -/

theorem nonWs_flatten (L : List (List Char)) : nonWs (List.flatten L) = (L.map nonWs).flatten :=
  List.filter_flatten ..

theorem nonWs_cons_ws {c : Char} (l : List Char) (hc : isJsWs c = true) :
    nonWs (c :: l) = nonWs l := by
  simp [nonWs, List.filter_cons, hc]

theorem nonWs_cons_not_ws {c : Char} (l : List Char) (hc : isJsWs c = false) :
    nonWs (c :: l) = c :: nonWs l := by
  simp [nonWs, List.filter_cons, hc]

theorem flatten_map_filter {P : List (List Char)} {f : List Char → List Char}
    {q : List Char → Bool} (hq : ∀ x ∈ P, q x = false → f x = []) :
    ((P.filter q).map f).flatten = (P.map f).flatten := by
  induction P with
  | nil => rfl
  | cons x rest ih =>
    have hrest : ∀ y ∈ rest, q y = false → f y = [] :=
      fun y hy => hq y (List.mem_cons_of_mem _ hy)
    cases hx : q x with
    | true => simp [List.filter_cons, hx, ih hrest]
    | false =>
      simp only [List.filter_cons, hx, Bool.false_eq_true, if_false, ite_false,
        List.map_cons, List.flatten_cons, ih hrest]
      rw [hq x (List.mem_cons_self ..) hx]
      rfl

theorem atomsOf_nonWs (trySep : List Char → Option (List Char × List Char))
    (hspec : ∀ {l s r : List Char}, trySep l = some (s, r) → s ≠ [] ∧ s ++ r = l)
    (text : List Char) :
    ((atomsOf trySep text).map nonWs).flatten = nonWs text := by
  rw [atomsOf_eq]
  rw [flatten_map_filter (fun x hx hempty => by
    have hx0 : x = [] := by simpa using hempty
    rw [hx0]
    rfl)]
  rw [List.map_map]
  have hcomp : (nonWs ∘ trimJs) = nonWs := by
    funext x
    exact nonWs_trimJs x
  rw [hcomp, ← nonWs_flatten, piecesOf_flatten trySep hspec]

theorem reflowGo_nonWs (h : List Char → List (List Char) → List (List Char)) (limit : Nat) :
    ∀ (atoms : List (List Char)) (cur : List Char) (acc : List (List Char)),
      (∀ a ∈ atoms, ∀ acc', nonWs (List.flatten (h a acc'))
        = nonWs (List.flatten acc') ++ nonWs a) →
      nonWs (List.flatten (reflowGo h limit atoms cur acc))
        = nonWs (List.flatten acc) ++ nonWs cur ++ (atoms.map nonWs).flatten := by
  intro atoms
  induction atoms with
  | nil =>
    intro cur acc _
    simp only [reflowGo]
    by_cases hce : cur.isEmpty
    · rw [if_pos hce]
      have : cur = [] := by simpa using hce
      subst this
      simp [nonWs]
    · rw [if_neg hce]
      simp [nonWs_append]
  | cons atom rest ih =>
    intro cur acc hh
    have hha : ∀ acc', nonWs (List.flatten (h atom acc'))
        = nonWs (List.flatten acc') ++ nonWs atom := hh atom (List.mem_cons_self ..)
    have hhr : ∀ a ∈ rest, ∀ acc', nonWs (List.flatten (h a acc'))
        = nonWs (List.flatten acc') ++ nonWs a := fun a ha => hh a (List.mem_cons_of_mem _ ha)
    simp only [reflowGo]
    by_cases hfit : cur ≠ [] ∧ 10 * (cur.length + 1 + atom.length) ≤ 13 * limit
    · rw [if_pos hfit, ih _ acc hhr]
      have : nonWs (cur ++ ' ' :: atom) = nonWs cur ++ nonWs atom := by
        rw [nonWs_append, nonWs_cons_ws atom (by decide)]
      rw [this]
      simp [List.append_assoc]
    · rw [if_neg hfit]
      have hflush : nonWs (List.flatten (if cur.isEmpty then acc else acc ++ [cur]))
          = nonWs (List.flatten acc) ++ nonWs cur := by
        by_cases hce : cur.isEmpty
        · rw [if_pos hce]
          have : cur = [] := by simpa using hce
          subst this
          simp [nonWs]
        · rw [if_neg hce]
          simp [nonWs_append]
      by_cases hg : 2 * atom.length > 3 * limit
      · rw [if_pos hg, ih _ _ hhr, hha, hflush]
        simp [nonWs, List.append_assoc]
      · rw [if_neg hg, ih _ _ hhr, hflush]
        simp [List.append_assoc]

theorem processSegmentF_nonWs :
    ∀ (fuel : Nat) (text : List Char) (limit : Nat) (acc : List (List Char)),
      1 ≤ limit → text.length + 1 ≤ fuel →
      nonWs (List.flatten (processSegmentF fuel text limit acc))
        = nonWs (List.flatten acc) ++ nonWs text := by
  intro fuel
  induction fuel with
  | zero => intro text limit acc _ hfuel; omega
  | succ fuel ih =>
    intro text limit acc hlim hfuel
    show nonWs (List.flatten (processStep (processSegmentF fuel) text limit acc))
      = nonWs (List.flatten acc) ++ nonWs text
    simp only [processStep]
    by_cases h1 : 2 * text.length ≤ 3 * limit ∨ text.length ≤ limit + 5
    · rw [if_pos h1]
      simp [nonWs_append]
    · rw [if_neg h1]
      cases hA : trySplitAndReflow (fun a acc' => processSegmentF fuel a limit acc')
          trySepMajor text limit acc with
      | some res =>
        simp only [trySplitAndReflow] at hA
        split at hA
        · simp at hA
        · split at hA
          · simp at hA
          · rename_i h2a
            have hrecMaj : ∀ a ∈ atomsOf trySepMajor text, ∀ acc',
                nonWs (List.flatten (processSegmentF fuel a limit acc'))
                  = nonWs (List.flatten acc') ++ nonWs a := by
              intro a ha acc'
              have hlt := atom_length_lt trySepMajor (fun h => trySepMajor_spec h)
                (by omega) ha
              exact ih a limit acc' hlim (by omega)
            simp only [Option.some.injEq] at hA
            subst hA
            show nonWs (List.flatten (reflowGo (fun a acc' => processSegmentF fuel a limit acc')
              limit (atomsOf trySepMajor text) [] acc))
              = nonWs (List.flatten acc) ++ nonWs text
            rw [reflowGo_nonWs _ limit _ [] acc hrecMaj,
              atomsOf_nonWs trySepMajor (fun h => trySepMajor_spec h) text]
            simp [nonWs]
      | none =>
        cases hB : trySplitAndReflow (fun a acc' => processSegmentF fuel a limit acc')
            trySepMinor text limit acc with
        | some res =>
          simp only [trySplitAndReflow] at hB
          split at hB
          · simp at hB
          · split at hB
            · simp at hB
            · rename_i h2b
              have hrecMin : ∀ a ∈ atomsOf trySepMinor text, ∀ acc',
                  nonWs (List.flatten (processSegmentF fuel a limit acc'))
                    = nonWs (List.flatten acc') ++ nonWs a := by
                intro a ha acc'
                have hlt := atom_length_lt trySepMinor (fun h => trySepMinor_spec h)
                  (by omega) ha
                exact ih a limit acc' hlim (by omega)
              simp only [Option.some.injEq] at hB
              subst hB
              show nonWs (List.flatten (reflowGo
                (fun a acc' => processSegmentF fuel a limit acc')
                limit (atomsOf trySepMinor text) [] acc))
                = nonWs (List.flatten acc) ++ nonWs text
              rw [reflowGo_nonWs _ limit _ [] acc hrecMin,
                atomsOf_nonWs trySepMinor (fun h => trySepMinor_spec h) text]
              simp [nonWs]
        | none =>
          set si : Nat := (if findBestSplitIndex text limit = -1 then (limit : Int)
            else findBestSplitIndex text limit).toNat with hsi
          show nonWs (List.flatten
            (if (trimJs (List.drop si text)).isEmpty then
              (if (trimJs (List.take si text)).isEmpty then acc
                else acc ++ [trimJs (List.take si text)])
            else processSegmentF fuel (trimJs (List.drop si text)) limit
              (if (trimJs (List.take si text)).isEmpty then acc
                else acc ++ [trimJs (List.take si text)])))
            = nonWs (List.flatten acc) ++ nonWs text
          have hsplitTD : nonWs text = nonWs (trimJs (List.take si text))
              ++ nonWs (trimJs (List.drop si text)) := by
            rw [nonWs_trimJs, nonWs_trimJs, ← nonWs_append, List.take_append_drop]
          have hflush : nonWs (List.flatten (if (trimJs (List.take si text)).isEmpty then acc
              else acc ++ [trimJs (List.take si text)]))
              = nonWs (List.flatten acc) ++ nonWs (trimJs (List.take si text)) := by
            by_cases hce : (trimJs (List.take si text)).isEmpty
            · rw [if_pos hce]
              have : trimJs (List.take si text) = [] := by simpa using hce
              rw [this]
              simp [nonWs]
            · rw [if_neg hce]
              simp [nonWs_append]
          by_cases htl : (trimJs (List.drop si text)).isEmpty
          · rw [if_pos htl]
            have htle : trimJs (List.drop si text) = [] := by simpa using htl
            rw [hflush, hsplitTD, htle]
            simp [nonWs]
          · rw [if_neg htl]
            have hlen : 1 ≤ text.length := by omega
            have htail_lt := splitIndexPos_tail_lt text limit hlim hlen
            rw [ih _ limit _ hlim (by rw [← hsi] at htail_lt; omega), hflush, hsplitTD]
            simp [List.append_assoc]

/-!  ## The masking passes only turn periods into sentinels -/

theorem Masked.refl : ∀ l : List Char, Masked l l
  | [] => Masked.nil
  | c :: rest => Masked.keep c (Masked.refl rest)

theorem Masked.append_left {m r : List Char} (w : List Char) (h : Masked m r) :
    Masked (w ++ m) (w ++ r) := by
  induction w with
  | nil => exact h
  | cons c rest ih => exact Masked.keep c ih

theorem matchCI_spec :
    ∀ (w l m r : List Char), matchCI w l = some (m, r) → l = m ++ r := by
  intro w
  induction w with
  | nil =>
    intro l m r h
    simp only [matchCI, Option.some.injEq, Prod.mk.injEq] at h
    obtain ⟨rfl, rfl⟩ := h
    rfl
  | cons w0 ws ih =>
    intro l m r h
    match l with
    | [] => simp [matchCI] at h
    | c :: rest =>
      simp only [matchCI] at h
      split at h
      · cases hm : matchCI ws rest with
        | none => rw [hm] at h; simp at h
        | some p =>
          obtain ⟨m', r'⟩ := p
          rw [hm] at h
          simp only [Option.some.injEq, Prod.mk.injEq] at h
          obtain ⟨hm1, hm2⟩ := h
          rw [← hm1, ← hm2, ih rest m' r' hm]
          rfl
      · simp at h

theorem tryAbbrevWord_spec {w l em r' : List Char} (h : tryAbbrevWord w l = some (em, r')) :
    ∃ m : List Char, em = m ++ [nul] ∧ l = m ++ '.' :: r' := by
  simp only [tryAbbrevWord] at h
  split at h
  · rename_i m r heq
    split at h
    · rename_i c r₃
      split at h
      case isTrue hdot =>
        subst hdot
        simp only [Option.some.injEq, Prod.mk.injEq] at h
        obtain ⟨rfl, rfl⟩ := h
        exact ⟨m, rfl, matchCI_spec w l m _ heq⟩
      case isFalse => exact Option.noConfusion h
    · exact Option.noConfusion h
  · exact Option.noConfusion h

theorem tryAbbrevList_spec :
    ∀ (ws : List (List Char)) (l em r' : List Char), tryAbbrevList ws l = some (em, r') →
      ∃ m : List Char, em = m ++ [nul] ∧ l = m ++ '.' :: r' := by
  intro ws
  induction ws with
  | nil => intro l em r' h; simp [tryAbbrevList] at h
  | cons w rest ih =>
    intro l em r' h
    simp only [tryAbbrevList] at h
    cases hw : tryAbbrevWord w l with
    | none => rw [hw] at h; exact ih l em r' h
    | some p =>
      rw [hw] at h
      simp only [Option.some.injEq] at h
      subst h
      exact tryAbbrevWord_spec hw

theorem maskAbbrevGo_masked :
    ∀ (fuel : Nat) (prevW : Bool) (l : List Char), Masked (maskAbbrevGo fuel prevW l) l := by
  intro fuel
  induction fuel with
  | zero => intro prevW l; exact Masked.refl l
  | succ fuel ih =>
    intro prevW l
    match l with
    | [] => exact Masked.nil
    | c :: rest =>
      simp only [maskAbbrevGo]
      by_cases hp : prevW
      · rw [if_pos hp]
        exact Masked.keep c (ih _ rest)
      · rw [if_neg hp]
        cases ha : tryAbbrev (c :: rest) with
        | none => exact Masked.keep c (ih _ rest)
        | some p =>
          obtain ⟨em, rest'⟩ := p
          obtain ⟨m, rfl, heq⟩ := tryAbbrevList_spec abbrevWords (c :: rest) em rest' ha
          rw [heq]
          have hmid : Masked (nul :: maskAbbrevGo fuel false rest') ('.' :: rest') :=
            Masked.mask (ih _ rest')
          have := Masked.append_left m hmid
          simpa using this

theorem maskInitialsGo_masked :
    ∀ (fuel : Nat) (prevW : Bool) (l : List Char), Masked (maskInitialsGo fuel prevW l) l := by
  intro fuel
  induction fuel with
  | zero => intro prevW l; exact Masked.refl l
  | succ fuel ih =>
    intro prevW l
    match l with
    | [] => exact Masked.nil
    | c :: rest =>
      simp only [maskInitialsGo]
      by_cases hcond : (!prevW && ('A' ≤ c && c ≤ 'Z')) = true
      · rw [if_pos hcond]
        split
        · split
          · rename_i hd
            subst hd
            exact Masked.keep c (Masked.mask (ih _ _))
          · exact Masked.keep c (ih _ _)
        · exact Masked.keep c (ih _ _)
      · rw [if_neg hcond]
        exact Masked.keep c (ih _ rest)

theorem Masked.trans : ∀ {m2 m1 r : List Char}, Masked m2 m1 → Masked m1 r → Masked m2 r := by
  intro m2 m1 r h21
  induction h21 generalizing r with
  | nil =>
    intro h1r
    cases h1r
    exact Masked.nil
  | keep c h ih =>
    intro h1r
    cases h1r with
    | keep _ htail => exact Masked.keep _ (ih htail)
    | mask htail => exact Masked.mask (ih htail)
  | mask h ih =>
    intro h1r
    cases h1r with
    | keep _ htail => exact Masked.mask (ih htail)

theorem Masked.restore :
    ∀ {m r : List Char}, Masked m r → nul ∉ r → (nonWs m).map restoreChar = nonWs r := by
  intro m r h
  induction h with
  | nil => intro _; rfl
  | keep c htail ih =>
    intro hnul
    have hnul' := fun hx => hnul (List.mem_cons_of_mem _ hx)
    have hcnul : c ≠ nul := fun hx => hnul (hx ▸ List.mem_cons_self ..)
    by_cases hw : isJsWs c = true
    · rw [nonWs_cons_ws _ hw, nonWs_cons_ws _ hw]
      exact ih hnul'
    · have hw' : isJsWs c = false := by
        cases hb : isJsWs c
        · rfl
        · exact absurd hb hw
      rw [nonWs_cons_not_ws _ hw', nonWs_cons_not_ws _ hw', List.map_cons]
      rw [ih hnul']
      have hrc : restoreChar c = c := by
        unfold restoreChar
        rw [if_neg hcnul]
      rw [hrc]
  | mask htail ih =>
    intro hnul
    have hnul' := fun hx => hnul (List.mem_cons_of_mem _ hx)
    rw [nonWs_cons_not_ws _ (by decide), nonWs_cons_not_ws _ (by decide), List.map_cons]
    rw [ih hnul']
    rfl

/-!  ## Paragraph splitting and the full pipeline preserve non-whitespace content -/

theorem splitNL_nonWs : ∀ l : List Char, nonWs (List.flatten (splitNL l)) = nonWs l := by
  intro l
  induction l using splitNL.induct with
  | case1 => rfl
  | case2 rest ih =>
    simp only [splitNL, List.flatten_cons, List.nil_append]
    rw [ih, nonWs_cons_ws rest (by decide)]
  | case3 rest ih =>
    simp only [splitNL, List.flatten_cons, List.nil_append]
    rw [ih, nonWs_cons_ws _ (by decide), nonWs_cons_ws rest (by decide)]
  | case4 c rest hne1 hne2 hnil ih =>
    simp only [splitNL, hnil, List.flatten_cons, List.flatten_nil, List.append_nil]
    rw [hnil] at ih
    simp only [List.flatten_nil] at ih
    by_cases hw : isJsWs c = true
    · rw [nonWs_cons_ws rest hw, ← ih]
      simp [nonWs, List.filter_cons, hw]
    · have hw' : isJsWs c = false := by
        cases hb : isJsWs c
        · rfl
        · exact absurd hb hw
      rw [nonWs_cons_not_ws rest hw', ← ih]
      simp [nonWs, List.filter_cons, hw']
  | case5 c rest hne1 hne2 q qs hcons ih =>
    simp only [splitNL, hcons, List.flatten_cons]
    rw [hcons] at ih
    simp only [List.flatten_cons] at ih
    by_cases hw : isJsWs c = true
    · rw [List.cons_append, nonWs_cons_ws (q ++ qs.flatten) hw, nonWs_cons_ws rest hw]
      exact ih
    · have hw' : isJsWs c = false := by
        cases hb : isJsWs c
        · rfl
        · exact absurd hb hw
      rw [List.cons_append, nonWs_cons_not_ws (q ++ qs.flatten) hw', nonWs_cons_not_ws rest hw', ih]

theorem splitLyrics_nonWs_fold (limit : Nat) (hlim : 1 ≤ limit) :
    ∀ (ps : List (List Char)) (acc : List (List Char)),
      nonWs (List.flatten (ps.foldl (fun acc p =>
        if (trimJs p).isEmpty then acc
        else processSegmentF ((trimJs p).length + 1) (trimJs p) limit acc) acc))
      = nonWs (List.flatten acc) ++ nonWs (List.flatten ps) := by
  intro ps
  induction ps with
  | nil => intro acc; simp [nonWs]
  | cons p rest ih =>
    intro acc
    simp only [List.foldl_cons, List.flatten_cons]
    rw [ih]
    by_cases hp : (trimJs p).isEmpty
    · rw [if_pos hp]
      have htr : trimJs p = [] := by simpa using hp
      have hpw : nonWs p = [] := by
        rw [← nonWs_trimJs, htr]
        rfl
      rw [nonWs_append, hpw]
      simp
    · rw [if_neg hp]
      rw [processSegmentF_nonWs _ _ limit acc hlim le_rfl, nonWs_trimJs, nonWs_append,
        List.append_assoc]

/-- C1 (amended): for every input without the U+0000 sentinel and every
positive target length, the non-whitespace characters of the concatenated
output lines (after unmasking) are exactly the non-whitespace characters of
the input, in order: no text is lost, duplicated, or reordered. -/
theorem C1_nonloss (raw : List Char) (limit : Nat) (hlim : 1 ≤ limit) (hnul : nul ∉ raw) :
    nonWs (List.flatten (splitLyrics raw limit)) = nonWs raw := by
  unfold splitLyrics
  by_cases hre : raw.isEmpty
  · rw [if_pos hre]
    have : raw = [] := by simpa using hre
    subst this
    rfl
  · rw [if_neg hre]
    show nonWs (List.flatten (((splitNL (maskInitials (maskAbbrev raw))).foldl (fun acc p =>
      if (trimJs p).isEmpty then acc
      else processSegmentF ((trimJs p).length + 1) (trimJs p) limit acc) []).map
        (fun line => line.map restoreChar))) = nonWs raw
    rw [← List.map_flatten, nonWs_map_restore,
      splitLyrics_nonWs_fold limit hlim (splitNL (maskInitials (maskAbbrev raw))) [],
      splitNL_nonWs]
    have hmasked : Masked (maskInitials (maskAbbrev raw)) raw :=
      Masked.trans (maskInitialsGo_masked _ _ _) (maskAbbrevGo_masked _ _ _)
    simpa using Masked.restore hmasked hnul

/-- Witness for C1 (amended) at a concrete input. -/
theorem C1_nonloss_witness :
    nonWs (List.flatten (splitLyrics
      (String.toList "Hello world. This is a test sentence that is quite long indeed.") 20))
      = nonWs (String.toList "Hello world. This is a test sentence that is quite long indeed.") :=
  C1_nonloss (String.toList "Hello world. This is a test sentence that is quite long indeed.")
    20 (by decide) (by decide)


/-!  ## Claim C10: the pipeline distributes over a newline.
An abbreviation match never spans a newline (every alternative consists of
letters plus the period, and a newline case-folds to itself), so the masking
scanners distribute over `'\n'`. -/

theorem matchCI_append_nl {w : List Char} (hw : ∀ ch ∈ w, lowerA '\n' ≠ lowerA ch) :
    ∀ (x y : List Char), matchCI w (x ++ '\n' :: y)
      = (matchCI w x).map (fun p => (p.1, p.2 ++ '\n' :: y)) := by
  induction w with
  | nil => intro x y; rfl
  | cons w0 ws ih =>
    intro x y
    have hw0 : lowerA '\n' ≠ lowerA w0 := hw w0 (List.mem_cons_self ..)
    have hws : ∀ ch ∈ ws, lowerA '\n' ≠ lowerA ch :=
      fun ch hch => hw ch (List.mem_cons_of_mem _ hch)
    match x with
    | [] =>
      simp only [List.nil_append, matchCI]
      rw [if_neg hw0]
      rfl
    | c :: x' =>
      simp only [List.cons_append, matchCI, List.append_eq]
      by_cases hc : lowerA c = lowerA w0
      · rw [if_pos hc, if_pos hc, ih hws x' y]
        cases matchCI ws x' with
        | none => rfl
        | some p => rfl
      · rw [if_neg hc, if_neg hc]
        rfl

theorem tryAbbrevWord_append_nl {w : List Char} (hw : ∀ ch ∈ w, lowerA '\n' ≠ lowerA ch)
    (x y : List Char) :
    tryAbbrevWord w (x ++ '\n' :: y)
      = (tryAbbrevWord w x).map (fun p => (p.1, p.2 ++ '\n' :: y)) := by
  simp only [tryAbbrevWord]
  rw [matchCI_append_nl hw x y]
  cases matchCI w x with
  | none => rfl
  | some p =>
    obtain ⟨m, r⟩ := p
    match r with
    | [] => rfl
    | c :: r₂ =>
      show (if c = '.' then some (m ++ [nul], r₂ ++ '\n' :: y) else none)
        = ((if c = '.' then some (m ++ [nul], r₂) else none).map
            (fun p => (p.1, p.2 ++ '\n' :: y)))
      by_cases hc : c = '.'
      · rw [if_pos hc, if_pos hc]
        rfl
      · rw [if_neg hc, if_neg hc]
        rfl

theorem tryAbbrevList_append_nl {ws : List (List Char)}
    (hws : ∀ w ∈ ws, ∀ ch ∈ w, lowerA '\n' ≠ lowerA ch) (x y : List Char) :
    tryAbbrevList ws (x ++ '\n' :: y)
      = (tryAbbrevList ws x).map (fun p => (p.1, p.2 ++ '\n' :: y)) := by
  induction ws with
  | nil => rfl
  | cons w rest ih =>
    simp only [tryAbbrevList]
    rw [tryAbbrevWord_append_nl (hws w (List.mem_cons_self ..)) x y]
    cases tryAbbrevWord w x with
    | none =>
      simp only [Option.map_none]
      exact ih (fun w' hw' => hws w' (List.mem_cons_of_mem _ hw'))
    | some p => rfl

theorem tryAbbrev_append_nl (x y : List Char) :
    tryAbbrev (x ++ '\n' :: y) = (tryAbbrev x).map (fun p => (p.1, p.2 ++ '\n' :: y)) :=
  tryAbbrevList_append_nl (by decide) x y

theorem tryAbbrev_consumes {l em rest' : List Char} (h : tryAbbrev l = some (em, rest')) :
    rest'.length < l.length := by
  obtain ⟨m, -, heq⟩ := tryAbbrevList_spec abbrevWords l em rest' h
  rw [heq]
  simp only [List.length_append, List.length_cons]
  omega

theorem maskAbbrevGo_fuel :
    ∀ (N fuel : Nat) (pw : Bool) (l : List Char), l.length ≤ N → l.length ≤ fuel →
      maskAbbrevGo fuel pw l = maskAbbrevGo l.length pw l := by
  intro N
  induction N with
  | zero =>
    intro fuel pw l hN _
    have : l = [] := by
      cases l with
      | nil => rfl
      | cons c t => simp at hN
    subst this
    cases fuel <;> rfl
  | succ N ih =>
    intro fuel pw l hN hfuel
    match l with
    | [] => cases fuel <;> rfl
    | c :: rest =>
      obtain ⟨f, rfl⟩ : ∃ f, fuel = f + 1 :=
        ⟨fuel - 1, by simp only [List.length_cons] at hfuel; omega⟩
      have hN' : rest.length ≤ N := by
        simp only [List.length_cons] at hN
        omega
      have hfuel' : rest.length ≤ f := by
        simp only [List.length_cons] at hfuel
        omega
      simp only [maskAbbrevGo, List.length_cons]
      by_cases hp : pw
      · rw [if_pos hp, if_pos hp, ih f _ rest hN' hfuel', ih rest.length _ rest hN' le_rfl]
      · rw [if_neg hp, if_neg hp]
        cases ha : tryAbbrev (c :: rest) with
        | none =>
          show c :: maskAbbrevGo f (isWordChar c) rest
            = c :: maskAbbrevGo rest.length (isWordChar c) rest
          rw [ih f _ rest hN' hfuel', ih rest.length _ rest hN' le_rfl]
        | some p =>
          obtain ⟨em, rest'⟩ := p
          have hlt : rest'.length < rest.length + 1 := by
            simpa using tryAbbrev_consumes ha
          show em ++ maskAbbrevGo f false rest' = em ++ maskAbbrevGo rest.length false rest'
          rw [ih f _ rest' (by omega) (by omega), ih rest.length _ rest' (by omega) (by omega)]

theorem tryAbbrev_nl (b : List Char) : tryAbbrev ('\n' :: b) = none := by
  have h := tryAbbrev_append_nl [] b
  rw [List.nil_append] at h
  rw [h]
  rfl

theorem maskAbbrevGo_nil_nl (pw : Bool) (b : List Char) :
    maskAbbrevGo (('\n' :: b).length) pw ('\n' :: b)
      = '\n' :: maskAbbrevGo b.length false b := by
  simp only [List.length_cons, maskAbbrevGo]
  by_cases hp : pw
  · rw [if_pos hp]
    rfl
  · rw [if_neg hp]
    rw [tryAbbrev_nl b]
    rfl

theorem maskAbbrevGo_append_nl :
    ∀ (n : Nat) (a : List Char), a.length ≤ n → ∀ (pw : Bool) (b : List Char),
      maskAbbrevGo (a ++ '\n' :: b).length pw (a ++ '\n' :: b)
        = maskAbbrevGo a.length pw a ++ '\n' :: maskAbbrevGo b.length false b := by
  intro n
  induction n with
  | zero =>
    intro a ha pw b
    have haa : a = [] := by
      cases a with
      | nil => rfl
      | cons c t => simp at ha
    subst haa
    exact maskAbbrevGo_nil_nl pw b
  | succ n ih =>
    intro a ha pw b
    match a with
    | [] => exact maskAbbrevGo_nil_nl pw b
    | c :: a' =>
      have ha' : a'.length ≤ n := by
        simp only [List.length_cons] at ha
        omega
      have htab := tryAbbrev_append_nl (c :: a') b
      rw [List.cons_append] at htab
      simp only [List.cons_append, List.length_cons, maskAbbrevGo, List.append_eq]
      by_cases hp : pw
      · rw [if_pos hp, if_pos hp, ih a' ha' (isWordChar c) b]
        rfl
      · rw [if_neg hp, if_neg hp]
        cases hA : tryAbbrev (c :: a') with
        | none =>
          simp only [hA, Option.map_none] at htab
          rw [htab]
          show c :: maskAbbrevGo (a' ++ '\n' :: b).length (isWordChar c) (a' ++ '\n' :: b)
            = (c :: maskAbbrevGo a'.length (isWordChar c) a')
              ++ '\n' :: maskAbbrevGo b.length false b
          rw [ih a' ha' (isWordChar c) b]
          rfl
        | some p =>
          obtain ⟨em, r'⟩ := p
          simp only [hA, Option.map_some] at htab
          rw [htab]
          have hr : r'.length ≤ a'.length := by
            have := tryAbbrev_consumes hA
            simp only [List.length_cons] at this
            omega
          show em ++ maskAbbrevGo (a' ++ '\n' :: b).length false (r' ++ '\n' :: b)
            = (em ++ maskAbbrevGo a'.length false r')
              ++ '\n' :: maskAbbrevGo b.length false b
          rw [maskAbbrevGo_fuel (a' ++ '\n' :: b).length ((a' ++ '\n' :: b).length)
            false (r' ++ '\n' :: b)
            (by simp only [List.length_append, List.length_cons]; omega)
            (by simp only [List.length_append, List.length_cons]; omega)]
          rw [ih r' (le_trans hr ha') false b]
          rw [maskAbbrevGo_fuel a'.length a'.length false r' hr hr]
          rw [List.append_assoc]

theorem maskAbbrev_append_nl (a b : List Char) :
    maskAbbrev (a ++ '\n' :: b) = maskAbbrev a ++ '\n' :: maskAbbrev b :=
  maskAbbrevGo_append_nl a.length a le_rfl false b

theorem maskInitialsGo_fuel :
    ∀ (N fuel : Nat) (pw : Bool) (l : List Char), l.length ≤ N → l.length ≤ fuel →
      maskInitialsGo fuel pw l = maskInitialsGo l.length pw l := by
  intro N
  induction N with
  | zero =>
    intro fuel pw l hN _
    have : l = [] := by
      cases l with
      | nil => rfl
      | cons c t => simp at hN
    subst this
    cases fuel <;> rfl
  | succ N ih =>
    intro fuel pw l hN hfuel
    match l with
    | [] => cases fuel <;> rfl
    | c :: rest =>
      obtain ⟨f, rfl⟩ : ∃ f, fuel = f + 1 :=
        ⟨fuel - 1, by simp only [List.length_cons] at hfuel; omega⟩
      have hN' : rest.length ≤ N := by
        simp only [List.length_cons] at hN
        omega
      have hfuel' : rest.length ≤ f := by
        simp only [List.length_cons] at hfuel
        omega
      simp only [maskInitialsGo, List.length_cons]
      by_cases hc : (!pw && ('A' ≤ c && c ≤ 'Z')) = true
      · rw [if_pos hc, if_pos hc]
        cases rest with
        | nil =>
          show c :: maskInitialsGo f (isWordChar c) [] = c :: maskInitialsGo 0 (isWordChar c) []
          cases f <;> rfl
        | cons d t =>
          have hlen : t.length ≤ N := by
            simp only [List.length_cons] at hN'
            omega
          show (if d = '.' then c :: nul :: maskInitialsGo f false t
                else c :: maskInitialsGo f (isWordChar c) (d :: t))
            = (if d = '.' then c :: nul :: maskInitialsGo (t.length + 1) false t
                else c :: maskInitialsGo (t.length + 1) (isWordChar c) (d :: t))
          by_cases hd : d = '.'
          · rw [if_pos hd, if_pos hd,
              ih f false t hlen (by simp only [List.length_cons] at hfuel'; omega),
              ih (t.length + 1) false t hlen (by omega)]
          · rw [if_neg hd, if_neg hd,
              ih f (isWordChar c) (d :: t) hN' hfuel',
              ih (t.length + 1) (isWordChar c) (d :: t) hN'
                (by simp only [List.length_cons]; omega)]
      · rw [if_neg hc, if_neg hc, ih f _ rest hN' hfuel', ih rest.length _ rest hN' le_rfl]

theorem maskInitialsGo_nil_nl (pw : Bool) (b : List Char) :
    maskInitialsGo (('\n' :: b).length) pw ('\n' :: b)
      = '\n' :: maskInitialsGo b.length false b := by
  simp only [List.length_cons, maskInitialsGo]
  have hcond : (!pw && ('A' ≤ '\n' && '\n' ≤ 'Z')) = false := by
    cases pw <;> rfl
  rw [hcond]
  simp only [Bool.false_eq_true, if_false, ite_false]
  rfl

theorem maskInitialsGo_append_nl :
    ∀ (n : Nat) (a : List Char), a.length ≤ n → ∀ (pw : Bool) (b : List Char),
      maskInitialsGo (a ++ '\n' :: b).length pw (a ++ '\n' :: b)
        = maskInitialsGo a.length pw a ++ '\n' :: maskInitialsGo b.length false b := by
  intro n
  induction n with
  | zero =>
    intro a ha pw b
    have haa : a = [] := by
      cases a with
      | nil => rfl
      | cons c t => simp at ha
    subst haa
    exact maskInitialsGo_nil_nl pw b
  | succ n ih =>
    intro a ha pw b
    match a with
    | [] => exact maskInitialsGo_nil_nl pw b
    | c :: a' =>
      have ha' : a'.length ≤ n := by
        simp only [List.length_cons] at ha
        omega
      simp only [List.cons_append, List.length_cons, maskInitialsGo, List.append_eq]
      by_cases hc : (!pw && ('A' ≤ c && c ≤ 'Z')) = true
      · rw [if_pos hc, if_pos hc]
        cases a' with
        | nil =>
          show (if ('\n' : Char) = '.' then
                  c :: nul :: maskInitialsGo (('\n' :: b).length) false b
                else c :: maskInitialsGo (('\n' :: b).length) (isWordChar c) ('\n' :: b))
            = (c :: maskInitialsGo 0 (isWordChar c) [])
              ++ '\n' :: maskInitialsGo b.length false b
          rw [if_neg (by decide)]
          rw [maskInitialsGo_nil_nl (isWordChar c) b]
          rfl
        | cons d a'' =>
          have hlen : a''.length ≤ n := by
            simp only [List.length_cons] at ha'
            omega
          show (if d = '.' then
                  c :: nul :: maskInitialsGo ((a'' ++ '\n' :: b).length + 1) false
                    (a'' ++ '\n' :: b)
                else c :: maskInitialsGo ((a'' ++ '\n' :: b).length + 1) (isWordChar c)
                    (d :: (a'' ++ '\n' :: b)))
            = (if d = '.' then c :: nul :: maskInitialsGo (a''.length + 1) false a''
                else c :: maskInitialsGo (a''.length + 1) (isWordChar c) (d :: a''))
              ++ '\n' :: maskInitialsGo b.length false b
          by_cases hd : d = '.'
          · rw [if_pos hd, if_pos hd]
            rw [maskInitialsGo_fuel ((a'' ++ '\n' :: b).length + 1)
              ((a'' ++ '\n' :: b).length + 1) false (a'' ++ '\n' :: b)
              (by omega) (by omega)]
            rw [ih a'' hlen false b]
            rw [maskInitialsGo_fuel (a''.length + 1) (a''.length + 1) false a''
              (by omega) (by omega)]
            rfl
          · rw [if_neg hd, if_neg hd]
            have h := ih (d :: a'') ha' (isWordChar c) b
            rw [List.cons_append] at h
            simp only [List.length_cons] at h
            rw [h]
            rfl
      · rw [if_neg hc, if_neg hc]
        rw [ih a' ha' (isWordChar c) b]
        rfl

theorem maskInitials_append_nl (a b : List Char) :
    maskInitials (a ++ '\n' :: b) = maskInitials a ++ '\n' :: maskInitials b :=
  maskInitialsGo_append_nl a.length a le_rfl false b

theorem splitNL_ne_nil : ∀ (l : List Char), splitNL l ≠ [] := by
  intro l
  induction l using splitNL.induct with
  | case1 => simp [splitNL]
  | case2 rest ih => simp [splitNL]
  | case3 rest ih => simp [splitNL]
  | case4 d rest hne1 hne2 hnil ih => simp [splitNL, hnil]
  | case5 d rest hne1 hne2 q qs hcons ih => simp [splitNL, hcons]

theorem splitNL_cons_ne (d : Char) (l : List Char) (hne1 : d = '\n' → False)
    (hne2 : ∀ (r1 : List Char), d = '\r' → l = '\n' :: r1 → False) :
    splitNL (d :: l) = match splitNL l with
      | [] => [[d]]
      | p :: ps => (d :: p) :: ps := by
  simp only [splitNL]

theorem splitNL_eq_nilnil : ∀ (l : List Char), splitNL l = [[]] → l = [] := by
  intro l
  induction l using splitNL.induct with
  | case1 => intro _; rfl
  | case2 rest ih =>
    intro h
    have h' : ([] : List Char) :: splitNL rest = [[]] := h
    injection h' with h1 h2
    exact absurd h2 (splitNL_ne_nil rest)
  | case3 rest ih =>
    intro h
    have h' : ([] : List Char) :: splitNL rest = [[]] := h
    injection h' with h1 h2
    exact absurd h2 (splitNL_ne_nil rest)
  | case4 d rest hne1 hne2 hnil ih => exact absurd hnil (splitNL_ne_nil rest)
  | case5 d rest hne1 hne2 q qs hcons ih =>
    intro h
    rw [splitNL_cons_ne d rest hne1 hne2, hcons] at h
    have h' : (d :: q) :: qs = [[]] := h
    injection h' with h1 h2
    exact absurd h1 (List.cons_ne_nil d q)

theorem modifyLast_cons (f : List Char → List Char) (p : List Char) {L : List (List Char)}
    (hL : L ≠ []) : modifyLast f (p :: L) = p :: modifyLast f L := by
  cases L with
  | nil => exact absurd rfl hL
  | cons q qs => rfl

theorem stripCR_cons (c : Char) (q : List Char) (hq : q ≠ []) :
    stripCR (c :: q) = c :: stripCR q := by
  cases q with
  | nil => exact absurd rfl hq
  | cons d t =>
    simp only [stripCR, List.getLast?_cons_cons]
    by_cases h : (d :: t).getLast? = some '\r'
    · rw [if_pos h, if_pos h]
      rfl
    · rw [if_neg h, if_neg h]

theorem splitNL_append_nl :
    ∀ (x y : List Char),
      splitNL (x ++ '\n' :: y) = modifyLast stripCR (splitNL x) ++ splitNL y := by
  intro x
  induction x using splitNL.induct with
  | case1 =>
    intro y
    rfl
  | case2 rest ih =>
    intro y
    show ([] : List Char) :: splitNL (rest ++ '\n' :: y)
      = modifyLast stripCR (([] : List Char) :: splitNL rest) ++ splitNL y
    rw [ih y, modifyLast_cons _ _ (splitNL_ne_nil rest), List.cons_append]
  | case3 rest ih =>
    intro y
    show ([] : List Char) :: splitNL (rest ++ '\n' :: y)
      = modifyLast stripCR (([] : List Char) :: splitNL rest) ++ splitNL y
    rw [ih y, modifyLast_cons _ _ (splitNL_ne_nil rest), List.cons_append]
  | case4 d rest hne1 hne2 hnil ih => exact absurd hnil (splitNL_ne_nil rest)
  | case5 d rest hne1 hne2 q qs hcons ih =>
    intro y
    have hsub := splitNL_cons_ne d rest hne1 hne2
    rw [hcons] at hsub
    by_cases hsp : d = '\r' ∧ rest = []
    · obtain ⟨rfl, rfl⟩ := hsp
      rfl
    · have hne2' : ∀ (r1 : List Char), d = '\r' → rest ++ '\n' :: y = '\n' :: r1 → False := by
        intro r1 hd heq
        cases rest with
        | nil => exact hsp ⟨hd, rfl⟩
        | cons r0 rt =>
          rw [List.cons_append] at heq
          injection heq with h1 h2
          exact hne2 rt hd (by rw [h1])
      rw [List.cons_append, splitNL_cons_ne d (rest ++ '\n' :: y) hne1 hne2', ih y, hcons,
        hsub]
      cases qs with
      | nil =>
        show (d :: stripCR q) :: splitNL y = stripCR (d :: q) :: splitNL y
        by_cases hq : q = []
        · subst hq
          have hrest : rest = [] := splitNL_eq_nilnil rest hcons
          have hd : ¬ d = '\r' := fun hd => hsp ⟨hd, hrest⟩
          have hstrip : stripCR [d] = [d] := by
            simp only [stripCR]
            rw [if_neg]
            intro hcontra
            rw [List.getLast?_singleton] at hcontra
            injection hcontra with h1
            exact hd h1
          rw [hstrip]
          rfl
        · rw [stripCR_cons d q hq]
      | cons q1 qs' => rfl

theorem trimRight_append_ws {c : Char} (hc : isJsWs c = true) (m : List Char) :
    trimRight (m ++ [c]) = trimRight m := by
  rw [trimRight, trimRight, List.reverse_append]
  rw [show ([c] : List Char).reverse ++ m.reverse = c :: m.reverse from by simp]
  rw [List.dropWhile_cons_of_pos hc]

theorem trimJs_append_ws {c : Char} (hc : isJsWs c = true) (l : List Char) :
    trimJs (l ++ [c]) = trimJs l := by
  rw [trimJs, trimJs]
  cases hd : trimLeft l with
  | nil =>
    have h1 : trimLeft (l ++ [c]) = [] := by
      show (l ++ [c]).dropWhile isJsWs = []
      rw [List.dropWhile_append]
      have he : (l.dropWhile isJsWs).isEmpty = true := by
        show (trimLeft l).isEmpty = true
        rw [hd]
        rfl
      rw [he]
      show List.dropWhile isJsWs [c] = []
      rw [List.dropWhile_cons_of_pos hc]
      rfl
    rw [h1]
  | cons d t =>
    have h1 : trimLeft (l ++ [c]) = trimLeft l ++ [c] := by
      show (l ++ [c]).dropWhile isJsWs = l.dropWhile isJsWs ++ [c]
      rw [List.dropWhile_append]
      have he : (l.dropWhile isJsWs).isEmpty = false := by
        show (trimLeft l).isEmpty = false
        rw [hd]
        rfl
      rw [he]
      rfl
    rw [h1, trimRight_append_ws hc, hd]

theorem trimJs_stripCR (p : List Char) : trimJs (stripCR p) = trimJs p := by
  simp only [stripCR]
  by_cases h : p.getLast? = some '\r'
  · rw [if_pos h]
    rw [List.getLast?_eq_some_iff] at h
    obtain ⟨l', rfl⟩ := h
    rw [List.dropLast_concat]
    exact (trimJs_append_ws (by decide) l').symm
  · rw [if_neg h]

theorem paraStep_stripCR (limit : Nat) (acc : List (List Char)) (p : List Char) :
    paraStep limit acc (stripCR p) = paraStep limit acc p := by
  simp only [paraStep, trimJs_stripCR]

theorem foldl_paraStep_modifyLast (limit : Nat) :
    ∀ (ps : List (List Char)) (acc : List (List Char)),
      (modifyLast stripCR ps).foldl (paraStep limit) acc = ps.foldl (paraStep limit) acc := by
  intro ps
  induction ps with
  | nil => intro acc; rfl
  | cons p ps ih =>
    intro acc
    cases ps with
    | nil => exact paraStep_stripCR limit acc p
    | cons q qs =>
      show ((p :: modifyLast stripCR (q :: qs)).foldl (paraStep limit) acc)
        = ((p :: q :: qs).foldl (paraStep limit) acc)
      rw [List.foldl_cons, List.foldl_cons]
      exact ih (paraStep limit acc p)

theorem foldl_paraStep_acc (limit : Nat) :
    ∀ (ps : List (List Char)) (acc : List (List Char)),
      ps.foldl (paraStep limit) acc = acc ++ ps.foldl (paraStep limit) [] := by
  intro ps
  induction ps with
  | nil => intro acc; simp
  | cons p ps ih =>
    intro acc
    have hps : paraStep limit acc p = acc ++ paraStep limit [] p := by
      simp only [paraStep]
      by_cases h : (trimJs p).isEmpty = true
      · rw [if_pos h, if_pos h]
        simp
      · rw [if_neg h, if_neg h]
        exact processSegmentF_acc _ _ _ acc
    rw [List.foldl_cons, List.foldl_cons, ih (paraStep limit acc p), ih (paraStep limit [] p),
      hps, List.append_assoc]

theorem splitLyrics_eq (raw : List Char) (limit : Nat) :
    splitLyrics raw limit
      = ((splitNL (maskInitials (maskAbbrev raw))).foldl (paraStep limit) []).map
          (fun line => line.map restoreChar) := by
  by_cases hre : raw.isEmpty
  · cases raw with
    | nil => rfl
    | cons c t => simp at hre
  · unfold splitLyrics
    rw [if_neg hre]
    rfl

/-- C10: segmentation distributes over paragraph boundaries.  For all inputs
`a` and `b` and every target length, `splitLyrics (a ++ "\n" ++ b)` is the
concatenation of `splitLyrics a` and `splitLyrics b`: the masking scanners
never match across the line break, the paragraph split cuts exactly there
(absorbing a trailing carriage return of `a`, which per-paragraph trimming
discards anyway), and the paragraph fold processes the pieces in source
order. -/
theorem C10_newline_append (a b : List Char) (limit : Nat) :
    splitLyrics (a ++ '\n' :: b) limit = splitLyrics a limit ++ splitLyrics b limit := by
  rw [splitLyrics_eq, splitLyrics_eq, splitLyrics_eq]
  rw [maskAbbrev_append_nl, maskInitials_append_nl]
  rw [splitNL_append_nl]
  rw [List.foldl_append]
  rw [foldl_paraStep_modifyLast]
  rw [foldl_paraStep_acc limit (splitNL (maskInitials (maskAbbrev b)))]
  rw [List.map_append]
